import Mathlib

/-!
Verification of the core of the pubgrub-rs version solver.

The source files `src/term.rs` and `src/internal/partial_solution.rs` are
embedded shallowly below.  The range algebra (`range.rs`), the memory
(`memory.rs`), incompatibilities (`incompatibility.rs`) and assignments
(`assignment.rs`) are not part of the provided sources; those parts are
modelled from the specification, as marked in the corresponding doc comments.

The version-set algebra (`Range`) is modelled as `Finset V` over a finite
version type: a canonical set of versions with structural (extensional)
equality and the operations none / any / exact / complement / union /
intersection / contains required by the spec.
-/

set_option maxHeartbeats 1000000
set_option linter.unusedSectionVars false

section Defs

variable {P V A B : Type}

/-- A positive or negative expression regarding a set of versions
(from `src/term.rs`).  The range inside is modelled as a `Finset V`. -/
inductive Term (V : Type) where
  | Positive (r : Finset V)
  | Negative (r : Finset V)
deriving DecidableEq

namespace Term

variable [DecidableEq V] [Fintype V]

/-- A term that is always true: `Negative(Range::none())`. -/
def any : Term V := .Negative ∅

/-- A term that is never true: `Positive(Range::none())`. -/
def empty : Term V := .Positive ∅

/-- A positive term containing exactly that version. -/
def exact (v : V) : Term V := .Positive {v}

/-- Simply check if a term is positive. -/
def is_positive : Term V → Bool
  | .Positive _ => true
  | .Negative _ => false

/-- Negate a term: swaps the Positive/Negative tag, keeping the range. -/
def negate : Term V → Term V
  | .Positive r => .Negative r
  | .Negative r => .Positive r

/-- Evaluate a term regarding a given choice of version. -/
def contains : Term V → V → Bool
  | .Positive r, v => decide (v ∈ r)
  | .Negative r, v => decide (v ∉ r)

/-- Compute the intersection of two terms.
If at least one term is positive, the intersection is also positive. -/
def intersection : Term V → Term V → Term V
  | .Positive r1, .Positive r2 => .Positive (r1 ∩ r2)
  | .Positive r1, .Negative r2 => .Positive (r1 ∩ r2ᶜ)
  | .Negative r1, .Positive r2 => .Positive (r1ᶜ ∩ r2)
  | .Negative r1, .Negative r2 => .Negative (r1 ∪ r2)

/-- Compute the union of two terms, defined as `¬(¬a ∩ ¬b)`. -/
def union (t u : Term V) : Term V := (t.negate.intersection u.negate).negate

/-- Compute the intersection of multiple terms (fold starting from `any`). -/
def intersect_all (l : List (Term V)) : Term V := l.foldl intersection any

/-- A term `t1` is a subset of `t2` if and only if `t1 ∩ t2 = t1`. -/
def subset_of (t u : Term V) : Bool := decide (t = t.intersection u)

end Term

/-- Describe a relation between a set of terms S and another term t
(from `src/term.rs`). -/
inductive Relation where
  | Satisfied
  | Contradicted
  | Inconclusive
deriving DecidableEq

namespace Term

variable [DecidableEq V] [Fintype V]

/-- Check if a set of terms satisfies this term: `⋂S ⊆ t`. -/
def satisfied_by (t : Term V) (terms : List (Term V)) : Bool :=
  (Term.intersect_all terms).subset_of t

/-- Check if a set of terms contradicts this term: `(⋂S) ∩ t = ∅`. -/
def contradicted_by (t : Term V) (terms : List (Term V)) : Bool :=
  decide ((Term.intersect_all terms).intersection t = Term.empty)

/-- Check if a set of terms satisfies or contradicts a given term;
otherwise the relation is inconclusive (from `src/term.rs`). -/
def relation_with (t : Term V) (other_terms : List (Term V)) : Relation :=
  let others_intersection := Term.intersect_all other_terms
  let full_intersection := t.intersection others_intersection
  if full_intersection = others_intersection then .Satisfied
  else if full_intersection = Term.empty then .Contradicted
  else .Inconclusive

end Term

/-- Lookup of the first entry with the given key in an association list
(the `Map` of the source, with a pinned iteration order). -/
def mapGet [DecidableEq P] : List (P × A) → P → Option A
  | [], _ => none
  | e :: rest, k => if e.1 = k then some e.2 else mapGet rest k

/-- Replace the value of the first entry with the given key, appending the
binding when the key is absent (the `Map::insert` / `get_mut` update). -/
def mapSet [DecidableEq P] : List (P × A) → P → A → List (P × A)
  | [], k, a => [(k, a)]
  | e :: rest, k, a => if e.1 = k then (k, a) :: rest else e :: mapSet rest k a

/-- Adjust the value of the first entry with the given key, if present. -/
def mapAdjust [DecidableEq P] : List (P × A) → P → (A → A) → List (P × A)
  | [], _, _ => []
  | e :: rest, k, f => if e.1 = k then (e.1, f e.2) :: rest else e :: mapAdjust rest k f

/-- Update the first entry with the given key, inserting a default binding at
the end when the key is absent (the map `entry(...).or_insert` pattern). -/
def mapUpdate [DecidableEq P] (m : List (P × A)) (k : P) (f : A → A) (dflt : A) :
    List (P × A) :=
  if (mapGet m k).isSome then mapAdjust m k f else m ++ [(k, dflt)]

/-- Index of the last element of the list satisfying the predicate
(`Iterator::rposition` of the source). -/
def rposition : List A → (A → Bool) → Option ℕ
  | [], _ => none
  | a :: rest, p =>
    match rposition rest p with
    | some i => some (i + 1)
    | none => if p a then some 0 else none

/-- An incompatibility: a mapping from packages to terms whose conjunction
must not hold.  Modelled from the spec: `incompatibility.rs` is absent from
`src/`; §3 describes an incompatibility as a finite set of (package, term)
pairs with no package appearing twice.  The origin kind and the `DerivedFrom`
parents are metadata not consumed by any embedded operation and are omitted. -/
structure Incompatibility (P V : Type) where
  terms : List (P × Term V)
deriving DecidableEq

/-- Per-package term of an incompatibility (`Incompatibility::get`). -/
def Incompatibility.get [DecidableEq P] (inc : Incompatibility P V) (p : P) :
    Option (Term V) :=
  mapGet inc.terms p

/-- A decision or a derivation.  Modelled from the spec: `assignment.rs` is
absent from `src/`; §3 defines `Decision{pkg,version}` and
`Derivation{pkg,term,cause}`. -/
inductive Assignment (P V : Type) where
  | decision (package : P) (version : V)
  | derivation (package : P) (term : Term V) (cause : Incompatibility P V)
deriving DecidableEq

namespace Assignment

/-- The package affected by the assignment. -/
def package : Assignment P V → P
  | .decision p _ => p
  | .derivation p _ _ => p

/-- A decision viewed as a term is `Positive(exact(version))`;
a derivation yields its stored term (spec §3). -/
def as_term [DecidableEq V] [Fintype V] : Assignment P V → Term V
  | .decision _ v => Term.exact v
  | .derivation _ t _ => t

/-- Tag check used to count decisions. -/
def isDecision : Assignment P V → Bool
  | .decision _ _ => true
  | .derivation _ _ _ => false

end Assignment

/-- Per-package bookkeeping of the memory.  Modelled from the spec:
`memory.rs` is absent from `src/`; §3 describes, per package, whether a
decision has been made and the accumulated intersection of the terms of the
package's other assignments.  The decision is kept separately so that
`remove_decision` can undo it. -/
structure PackageAssignments (V : Type) where
  decision : Option V
  derivations_intersected : Term V
deriving DecidableEq

/-- Memory derived from the history.  Modelled from the spec: `memory.rs` is
absent from `src/`; §3 describes a per-package map with pinned (insertion)
iteration order. -/
structure Memory (P V : Type) where
  assignments : List (P × PackageAssignments V)
deriving DecidableEq

namespace Memory

variable [DecidableEq P] [DecidableEq V] [Fintype V]

/-- The empty memory. -/
def empty : Memory P V := ⟨[]⟩

/-- Record one assignment.  Modelled from the spec: a decision sets the
per-package decision, a derivation is intersected into the accumulated term. -/
def add_assignment (m : Memory P V) : Assignment P V → Memory P V
  | .decision p v =>
      ⟨mapUpdate m.assignments p (fun e => { e with decision := some v })
        { decision := some v, derivations_intersected := Term.any }⟩
  | .derivation p t _ =>
      ⟨mapUpdate m.assignments p
        (fun e =>
          { e with derivations_intersected := e.derivations_intersected.intersection t })
        { decision := none, derivations_intersected := Term.any.intersection t }⟩

/-- Forget the decision on a package (used when rolling back a decision).
Modelled from the spec, which requires `add_version` to roll back the
tentative decision. -/
def remove_decision (m : Memory P V) (p : P) : Memory P V :=
  ⟨mapAdjust m.assignments p (fun e => { e with decision := none })⟩

/-- Accumulated intersection of all assignment terms for a package (spec §3);
the empty intersection is `Term::any()`. -/
def term_intersection_for_package (m : Memory P V) (p : P) : Term V :=
  match mapGet m.assignments p with
  | none => Term.any
  | some e =>
    match e.decision with
    | none => e.derivations_intersected
    | some v => (Term.exact v).intersection e.derivations_intersected

/-- Packages with a positive required term but no decision yet, paired with
that term.  Modelled from the spec (§3, Memory). -/
def potential_packages (m : Memory P V) : List (P × Term V) :=
  m.assignments.filterMap fun pe =>
    if pe.2.decision.isNone && pe.2.derivations_intersected.is_positive then
      some (pe.1, pe.2.derivations_intersected)
    else none

end Memory

/-- Error kind returned when the dependency provider fails to list versions.
Modelled from the spec (§7, error taxonomy); only the variant reachable from
the embedded operations is included. -/
inductive PubGrubError (P E : Type) where
  | ErrorRetrievingVersions (package : P) (source : E)
deriving DecidableEq

/-- The value `usize::MAX` used to seed the minimum search in `pick_package`. -/
def USIZE_MAX : ℕ := 2 ^ 64 - 1

/-- The current state of the solution being built by the algorithm
(from `src/internal/partial_solution.rs`). -/
structure PartialSolution (P V : Type) where
  decision_level : ℕ
  history : List (ℕ × Assignment P V)
  memory : Memory P V
deriving DecidableEq

namespace PartialSolution

variable [DecidableEq P] [DecidableEq V] [Fintype V]

/-- An empty partial solution. -/
def empty : PartialSolution P V := ⟨0, [], Memory.empty⟩

/-- Push one assignment: bump the level on a decision, record it in memory
and append it to the history with its level. -/
def add_assignment (ps : PartialSolution P V) (a : Assignment P V) :
    PartialSolution P V :=
  let lvl :=
    match a with
    | .decision _ _ => ps.decision_level + 1
    | .derivation _ _ _ => ps.decision_level
  { decision_level := lvl
    memory := ps.memory.add_assignment a
    history := ps.history ++ [(lvl, a)] }

/-- Add a decision to the partial solution. -/
def add_decision (ps : PartialSolution P V) (p : P) (v : V) : PartialSolution P V :=
  ps.add_assignment (.decision p v)

/-- Add a derivation to the partial solution. -/
def add_derivation (ps : PartialSolution P V) (p : P) (t : Term V)
    (cause : Incompatibility P V) : PartialSolution P V :=
  ps.add_assignment (.derivation p t cause)

/-- Rebuild a partial solution by replaying a sequence of assignments from
the empty state. -/
def from_assignments (as : List (Assignment P V)) : PartialSolution P V :=
  as.foldl add_assignment empty

/-- Backtrack the partial solution to a given decision level: look for the
last history entry with exactly that level (falling back to `len - 1`) and
replay the prefix up to it. -/
def backtrack (ps : PartialSolution P V) (decision_level : ℕ) : PartialSolution P V :=
  let pos :=
    (rposition ps.history (fun la => la.1 == decision_level)).getD
      (ps.history.length - 1)
  from_assignments ((ps.history.take (pos + 1)).map Prod.snd)

/-- Whether the terms in the partial solution satisfy the incompatibility.
Modelled from the spec: `incompatibility.rs` is absent from `src/`; §4.2
defines `relation(lookup)` as Satisfied iff for all p, lookup(p) ⊆ I[p].
Only the Satisfied case is consumed by the embedded operations. -/
def relationSatisfied (ps : PartialSolution P V) (inc : Incompatibility P V) : Bool :=
  inc.terms.all fun pt =>
    (ps.memory.term_intersection_for_package pt.1).subset_of pt.2

/-- Whether any of the given incompatibilities is satisfied. -/
def satisfies_any_of (ps : PartialSolution P V)
    (incompatibilities : List (Incompatibility P V)) : Bool :=
  incompatibilities.any fun inc => ps.relationSatisfied inc

/-- Remove the last assignment; only called when it is a decision. -/
def remove_last_decision (ps : PartialSolution P V) : PartialSolution P V :=
  { decision_level := ps.decision_level - 1
    history := ps.history.dropLast
    memory :=
      match ps.history.getLast? with
      | some la => ps.memory.remove_decision la.2.package
      | none => ps.memory }

/-- Tentatively add the version as a decision, and roll the decision back if
any of the new incompatibilities becomes satisfied. -/
def add_version (ps : PartialSolution P V) (p : P) (v : V)
    (new_incompatibilities : List (Incompatibility P V)) : PartialSolution P V :=
  let tentative := ps.add_decision p v
  if tentative.satisfies_any_of new_incompatibilities then
    tentative.remove_last_decision
  else tentative

end PartialSolution

/-- The inner loop of `pick_package`: scan the potential packages, keeping
the first package whose count of matching available versions is strictly
smaller than the minimum seen so far, and abort on a provider error. -/
def pickLoop [DecidableEq V] [Fintype V] (provider : P → Except E (List V)) :
    List (P × Term V) → Option (P × Term V) → ℕ →
      Except (PubGrubError P E) (Option (P × Term V))
  | [], out, _ => .ok out
  | pt :: rest, out, min_key =>
    match provider pt.1 with
    | .error e => .error (.ErrorRetrievingVersions pt.1 e)
    | .ok vs =>
      let key := (vs.filter fun v => pt.2.contains v).length
      if key < min_key then pickLoop provider rest (some pt) key
      else pickLoop provider rest out min_key

/-- Heuristic choosing, among the potential packages, the one with the fewest
available versions matching its term (from `src/internal/partial_solution.rs`). -/
def PartialSolution.pick_package [DecidableEq P] [DecidableEq V] [Fintype V]
    (ps : PartialSolution P V) (provider : P → Except E (List V)) :
    Except (PubGrubError P E) (Option (P × Term V)) :=
  pickLoop provider ps.memory.potential_packages none USIZE_MAX

/-- Number of matching available versions used as the key in `pick_package`
(0 when the provider errors; that case never feeds a comparison). -/
def keyOf [DecidableEq V] [Fintype V] (provider : P → Except E (List V))
    (pt : P × Term V) : ℕ :=
  match provider pt.1 with
  | .ok vs => (vs.filter fun v => pt.2.contains v).length
  | .error _ => 0

/-- All accumulated flags are true (`accum_satisfied.iter().all(...)`). -/
def allSatisfied (m : List (P × (Bool × Term V))) : Bool :=
  m.all fun e => e.2.1

/-- The loop of `find_satisfier_helper`, returning the index of the matching
assignment together with the assignment itself.  The panic
`"A package in incompat should always exist in accum_satisfied"` is
represented by `none`; it is proved unreachable for the actual entry points. -/
def fsAux [DecidableEq P] [DecidableEq V] [Fintype V] (inc : Incompatibility P V) :
    List (P × (Bool × Term V)) → List (ℕ × Assignment P V) →
      Option (ℕ × (ℕ × Assignment P V))
  | _, [] => none
  | accum, la :: rest =>
    match inc.get la.2.package with
    | none => (fsAux inc accum rest).map fun ix => (ix.1 + 1, ix.2)
    | some incompat_term =>
      match mapGet accum la.2.package with
      | none => none
      | some (true, _) => (fsAux inc accum rest).map fun ix => (ix.1 + 1, ix.2)
      | some (false, accum_term) =>
        let new_term := accum_term.intersection la.2.as_term
        let sat := new_term.subset_of incompat_term
        let accum2 := mapSet accum la.2.package (sat, new_term)
        if sat && allSatisfied accum2 then some (0, la)
        else (fsAux inc accum2 rest).map fun ix => (ix.1 + 1, ix.2)

/-- Iterate over the assignments (oldest first) until the first one such that
the set of all assignments up to and including it satisfies the given
incompatibility; also return all earlier assignments
(from `src/internal/partial_solution.rs`). -/
def find_satisfier_helper [DecidableEq P] [DecidableEq V] [Fintype V]
    (inc : Incompatibility P V) (accum_satisfied : List (P × (Bool × Term V)))
    (all_assignments : List (ℕ × Assignment P V)) :
    Option ((ℕ × Assignment P V) × List (ℕ × Assignment P V)) :=
  (fsAux inc accum_satisfied all_assignments).map fun ix =>
    (ix.2, all_assignments.take ix.1)

/-- The loop of the non-skipping variant of `find_satisfier_helper`: the term
of a package already satisfied keeps being intersected with that package's
subsequent assignments, and its flag recomputed (the refinement target of the
claim; the code itself skips such assignments). -/
def fsAuxSpec [DecidableEq P] [DecidableEq V] [Fintype V] (inc : Incompatibility P V) :
    List (P × (Bool × Term V)) → List (ℕ × Assignment P V) →
      Option (ℕ × (ℕ × Assignment P V))
  | _, [] => none
  | accum, la :: rest =>
    match inc.get la.2.package with
    | none => (fsAuxSpec inc accum rest).map fun ix => (ix.1 + 1, ix.2)
    | some incompat_term =>
      match mapGet accum la.2.package with
      | none => none
      | some (_, accum_term) =>
        let new_term := accum_term.intersection la.2.as_term
        let sat := new_term.subset_of incompat_term
        let accum2 := mapSet accum la.2.package (sat, new_term)
        if sat && allSatisfied accum2 then some (0, la)
        else (fsAuxSpec inc accum2 rest).map fun ix => (ix.1 + 1, ix.2)

/-- Non-skipping variant of `find_satisfier_helper` (see `fsAuxSpec`). -/
def find_satisfier_helperSpec [DecidableEq P] [DecidableEq V] [Fintype V]
    (inc : Incompatibility P V) (accum_satisfied : List (P × (Bool × Term V)))
    (all_assignments : List (ℕ × Assignment P V)) :
    Option ((ℕ × Assignment P V) × List (ℕ × Assignment P V)) :=
  (fsAuxSpec inc accum_satisfied all_assignments).map fun ix =>
    (ix.2, all_assignments.take ix.1)

/-- Fresh accumulator with an entry `(false, Term::any())` for every package
of the incompatibility. -/
def new_accum_satisfied_from [DecidableEq V] [Fintype V]
    (inc : Incompatibility P V) : List (P × (Bool × Term V)) :=
  inc.terms.map fun pt => (pt.1, (false, Term.any))

/-- A satisfier is the earliest assignment in the partial solution such that
the incompatibility is satisfied by the partial solution up to and including
that assignment; also returns all earlier assignments. -/
def find_satisfier [DecidableEq P] [DecidableEq V] [Fintype V]
    (inc : Incompatibility P V) (history : List (ℕ × Assignment P V)) :
    Option ((ℕ × Assignment P V) × List (ℕ × Assignment P V)) :=
  find_satisfier_helper inc (new_accum_satisfied_from inc) history

/-- Earliest assignment before the satisfier such that the incompatibility is
satisfied by the partial solution up to and including that assignment plus the
satisfier.  The `expect("This should exist")` panic is represented by `none`. -/
def find_previous_satisfier [DecidableEq P] [DecidableEq V] [Fintype V]
    (inc : Incompatibility P V) (satisfier : Assignment P V)
    (previous_assignments : List (ℕ × Assignment P V)) : Option ℕ :=
  (inc.get satisfier.package).map fun incompat_term =>
    let satisfier_term := satisfier.as_term
    let is_satisfied := satisfier_term.subset_of incompat_term
    let accum_satisfied :=
      mapSet (new_accum_satisfied_from inc) satisfier.package
        (is_satisfied, satisfier_term)
    match fsAux inc accum_satisfied previous_assignments with
    | none => 1
    | some (_, (level, _)) => max level 1

/-- Find satisfier and previous satisfier decision level.  The two `expect`
panics of the source are represented by `none`. -/
def find_satisfier_and_previous_satisfier_level [DecidableEq P] [DecidableEq V]
    [Fintype V] (inc : Incompatibility P V) (ps : PartialSolution P V) :
    Option (Assignment P V × ℕ × ℕ) :=
  match find_satisfier inc ps.history with
  | none => none
  | some ((satisfier_level, satisfier), previous_assignments) =>
    match find_previous_satisfier inc satisfier previous_assignments with
    | none => none
    | some previous_satisfier_level =>
      some (satisfier, satisfier_level, previous_satisfier_level)

/-- Terms contributed on a package by the assignments of a history slice. -/
def assignmentTermsFor [DecidableEq P] [DecidableEq V] [Fintype V] (p : P)
    (hist : List (ℕ × Assignment P V)) : List (Term V) :=
  hist.filterMap fun la => if la.2.package = p then some la.2.as_term else none

/-- A history slice satisfies an incompatibility when, for every package of
the incompatibility, the intersection of the terms of that package's
assignments is a subset of the incompatibility's term (spec §4.4: the
per-package intersection makes `relation(I) = Satisfied`). -/
def satisfiesIncompat [DecidableEq P] [DecidableEq V] [Fintype V]
    (inc : Incompatibility P V) (hist : List (ℕ × Assignment P V)) : Bool :=
  inc.terms.all fun pt =>
    (Term.intersect_all (assignmentTermsFor pt.1 hist)).subset_of pt.2

/-- A history slice, plus the satisfier alone contributing its term on the
satisfier's package, satisfies an incompatibility (spec §4.4, previous
satisfier). -/
def satisfiesWithSatisfier [DecidableEq P] [DecidableEq V] [Fintype V]
    (inc : Incompatibility P V) (satisfier : Assignment P V)
    (hist : List (ℕ × Assignment P V)) : Bool :=
  inc.terms.all fun pt =>
    (((if pt.1 = satisfier.package then satisfier.as_term else Term.any)).intersection
        (Term.intersect_all (assignmentTermsFor pt.1 hist))).subset_of pt.2

/-- Per-package running intersection over a history slice, starting from a
seed term. -/
def accumInter [DecidableEq P] [DecidableEq V] [Fintype V] (seed : Term V) (p : P)
    (hist : List (ℕ × Assignment P V)) : Term V :=
  hist.foldl
    (fun acc la => if la.2.package = p then acc.intersection la.2.as_term else acc)
    seed

/-- Satisfaction of an incompatibility by a history slice relative to a
per-package seed (the internal form of `satisfiesIncompat` /
`satisfiesWithSatisfier`). -/
def satAtB [DecidableEq P] [DecidableEq V] [Fintype V] (seed : P → Term V)
    (inc : Incompatibility P V) (hist : List (ℕ × Assignment P V)) : Bool :=
  inc.terms.all fun pt => (accumInter (seed pt.1) pt.1 hist).subset_of pt.2

/-- Seed used by the previous-satisfier search: the satisfier's own term on
its package, `Term::any()` elsewhere. -/
def prevSeed [DecidableEq P] [DecidableEq V] [Fintype V]
    (satisfier : Assignment P V) : P → Term V :=
  fun p => if p = satisfier.package then satisfier.as_term else Term.any

/-- Invariant tying the helper's accumulator to the processed prefix: a
package's flag records whether its running intersection over the prefix is a
subset of its incompatibility term, and while the flag is false the stored
term is exactly that running intersection. -/
def AccInv [DecidableEq P] [DecidableEq V] [Fintype V] (seed : P → Term V)
    (inc : Incompatibility P V) (done : List (ℕ × Assignment P V))
    (accum : List (P × (Bool × Term V))) : Prop :=
  ∀ p b tm, mapGet accum p = some (b, tm) →
    ∀ it, inc.get p = some it →
      b = (accumInter (seed p) p done).subset_of it ∧
      (b = false → tm = accumInter (seed p) p done)

/-- What `fsAux` returning `some ix` means: `ix` names the earliest
assignment of `rest` such that the processed prefix `done` extended up to and
including it satisfies the incompatibility. -/
def CharSome [DecidableEq P] [DecidableEq V] [Fintype V] (seed : P → Term V)
    (inc : Incompatibility P V) (done rest : List (ℕ × Assignment P V))
    (ix : ℕ × (ℕ × Assignment P V)) : Prop :=
  ∃ h : ix.1 < rest.length,
    ix.2 = rest.get ⟨ix.1, h⟩ ∧
    (inc.get ix.2.2.package).isSome = true ∧
    satAtB seed inc (done ++ rest.take (ix.1 + 1)) = true ∧
    ∀ k, k < ix.1 → satAtB seed inc (done ++ rest.take (k + 1)) = false

/-- What `fsAux` returning `none` means: no prefix extension satisfies the
incompatibility. -/
def CharNone [DecidableEq P] [DecidableEq V] [Fintype V] (seed : P → Term V)
    (inc : Incompatibility P V) (done rest : List (ℕ × Assignment P V)) : Prop :=
  ∀ k, k < rest.length → satAtB seed inc (done ++ rest.take (k + 1)) = false

/-- Number of decisions in a history slice. -/
def countDecisions (l : List (ℕ × Assignment P V)) : ℕ :=
  l.countP fun la => la.2.isDecision

/-- Number of decisions in a sequence of assignments. -/
def countDecisionsA (as : List (Assignment P V)) : ℕ :=
  as.countP Assignment.isDecision

/-- Level bookkeeping invariant of a partial solution: the decision level is
the number of decisions in the history, and each entry's stored level is the
number of decisions up to and including it. -/
def HistLevels [DecidableEq P] [DecidableEq V] [Fintype V]
    (ps : PartialSolution P V) : Prop :=
  ps.decision_level = countDecisions ps.history ∧
  ∀ i, ∀ h : i < ps.history.length,
    (ps.history.get ⟨i, h⟩).1 = countDecisions (ps.history.take (i + 1))

/-- Partial solutions reachable from the empty one through the public
mutating operations. -/
inductive Reachable [DecidableEq P] [DecidableEq V] [Fintype V] :
    PartialSolution P V → Prop where
  | empty : Reachable PartialSolution.empty
  | add_decision (ps : PartialSolution P V) (p : P) (v : V) :
      Reachable ps → Reachable (ps.add_decision p v)
  | add_derivation (ps : PartialSolution P V) (p : P) (t : Term V)
      (c : Incompatibility P V) :
      Reachable ps → Reachable (ps.add_derivation p t c)
  | add_version (ps : PartialSolution P V) (p : P) (v : V)
      (incs : List (Incompatibility P V)) :
      Reachable ps → Reachable (ps.add_version p v incs)
  | backtrack (ps : PartialSolution P V) (lvl : ℕ) :
      Reachable ps → Reachable (ps.backtrack lvl)

/-- An accumulator entry with a true flag is justified when its stored term
is a subset of the package's incompatibility term (the condition established
by every flag update of `find_satisfier_helper` and by the seeding in
`find_previous_satisfier`). -/
def entryJustified [DecidableEq P] [DecidableEq V] [Fintype V]
    (inc : Incompatibility P V) (e : P × (Bool × Term V)) : Bool :=
  match e.2.1, inc.get e.1 with
  | true, some it => e.2.2.subset_of it
  | _, _ => true

/-- Relation between a skipping-side and a non-skipping-side accumulator:
keys and flags agree positionally, terms agree while the flag is false, and
once the flag is true the non-skipping term stays a subset of the package's
incompatibility term. -/
def RelAcc [DecidableEq P] [DecidableEq V] [Fintype V]
    (inc : Incompatibility P V) :
    List (P × (Bool × Term V)) → List (P × (Bool × Term V)) → Prop
  | [], [] => True
  | e1 :: r1, e2 :: r2 =>
      e1.1 = e2.1 ∧ e1.2.1 = e2.2.1 ∧
      (e1.2.1 = false → e1.2.2 = e2.2.2) ∧
      (e1.2.1 = true →
        ∀ it, inc.get e1.1 = some it → e2.2.2.subset_of it = true) ∧
      RelAcc inc r1 r2
  | _, _ => False

/-- Whether a provider response is a success. -/
def exceptIsOk {E A : Type} : Except E A → Bool
  | .ok _ => true
  | .error _ => false

/-- The memory agrees with the history: for every package, the memory's
accumulated term equals the intersection of that package's assignment terms
in the history (spec §3: the memory is derived from the history). -/
def MemoryAgrees [DecidableEq P] [DecidableEq V] [Fintype V]
    (ps : PartialSolution P V) : Prop :=
  ∀ p, ps.memory.term_intersection_for_package p =
    Term.intersect_all (assignmentTermsFor p ps.history)

/-- Relabel a sequence of assignments with decision counts starting from a
given level (the effect of replaying them through `add_assignment`). -/
def relabel (d : ℕ) : List (Assignment P V) → List (ℕ × Assignment P V)
  | [] => []
  | a :: rest =>
    let d2 := if a.isDecision then d + 1 else d
    (d2, a) :: relabel d2 rest

/-- Concrete incompatibility over two packages and two versions, used to
evaluate the theorems on explicit inputs. -/
def incW : Incompatibility (Fin 2) (Fin 2) := ⟨[((0 : Fin 2), Term.Positive {0})]⟩

/-- Concrete partial solution consisting of a single decision. -/
def psW : PartialSolution (Fin 2) (Fin 2) := PartialSolution.empty.add_decision 0 0

/-- Concrete satisfier assignment used to evaluate the previous-satisfier
search. -/
def satW : Assignment (Fin 2) (Fin 2) :=
  Assignment.derivation 0 (Term.Positive {0, 1}) incW

/-- Concrete previous-assignments prefix used to evaluate the
previous-satisfier search. -/
def prevW : List (ℕ × Assignment (Fin 2) (Fin 2)) :=
  [(1, Assignment.decision 0 0)]

/-- Concrete reachable partial solution with two decision levels. -/
def ps2W : PartialSolution (Fin 2) (Fin 2) :=
  ((PartialSolution.empty.add_decision 0 0).add_derivation 1
      (Term.Positive {0}) incW).add_decision 1 0

/-- Concrete partial solution with one potential package. -/
def psPotW : PartialSolution (Fin 2) (Fin 2) :=
  PartialSolution.empty.add_derivation 0 (Term.Positive {0, 1}) incW

/-- Concrete dependency provider listing versions for package 0 only. -/
def providerW : Fin 2 → Except Unit (List (Fin 2)) :=
  fun p => if p = 0 then .ok [0, 1] else .ok []

end Defs

section TermLemmas

variable {P V : Type} [DecidableEq P] [DecidableEq V] [Fintype V]

theorem Term.negate_negate (t : Term V) : t.negate.negate = t := by
  cases t <;> rfl

theorem Term.inter_comm (t u : Term V) : t.intersection u = u.intersection t := by
  cases t <;> cases u <;>
    simp [Term.intersection, Finset.inter_comm, Finset.union_comm]

theorem Term.inter_assoc (t u w : Term V) :
    (t.intersection u).intersection w = t.intersection (u.intersection w) := by
  cases t <;> cases u <;> cases w <;>
    simp [Term.intersection, Finset.inter_assoc, Finset.union_assoc,
      Finset.compl_union]

theorem Term.any_inter (t : Term V) : Term.any.intersection t = t := by
  cases t <;>
    simp [Term.any, Term.intersection, Finset.compl_empty, Finset.univ_inter,
      Finset.empty_union]

theorem Term.inter_any (t : Term V) : t.intersection Term.any = t := by
  cases t <;>
    simp [Term.any, Term.intersection, Finset.compl_empty, Finset.inter_univ,
      Finset.union_empty]

theorem Term.subset_of_true_iff (t u : Term V) :
    t.subset_of u = true ↔ t = t.intersection u := by
  simp [Term.subset_of]

theorem Term.subset_inter (t s u : Term V) (h : t.subset_of u = true) :
    (t.intersection s).subset_of u = true := by
  rw [Term.subset_of_true_iff] at h ⊢
  calc t.intersection s = (t.intersection u).intersection s := by rw [← h]
    _ = t.intersection (u.intersection s) := Term.inter_assoc t u s
    _ = t.intersection (s.intersection u) := by rw [Term.inter_comm u s]
    _ = (t.intersection s).intersection u := (Term.inter_assoc t s u).symm

theorem Term.any_subset_iff (t : Term V) :
    (Term.any : Term V).subset_of t = true ↔ t = Term.any := by
  simp [Term.subset_of, Term.any_inter, eq_comm]

theorem Term.inter_foldl (l : List (Term V)) (s x : Term V) :
    s.intersection (l.foldl Term.intersection x) =
      l.foldl Term.intersection (s.intersection x) := by
  induction l generalizing x with
  | nil => rfl
  | cons a rest ih =>
    simp only [List.foldl_cons]
    rw [ih (x.intersection a), Term.inter_assoc]

end TermLemmas

section MapLemmas

variable {P V A : Type} [DecidableEq P]

theorem list_all_congr {l : List A} {p q : A → Bool}
    (h : ∀ a ∈ l, p a = q a) : l.all p = l.all q := by
  induction l with
  | nil => rfl
  | cons a rest ih =>
    simp only [List.all_cons]
    rw [h a (by simp), ih fun x hx => h x (by simp [hx])]

theorem mapGet_mapSet_self (m : List (P × A)) (k : P) (a : A) :
    mapGet (mapSet m k a) k = some a := by
  induction m with
  | nil => simp [mapSet, mapGet]
  | cons e rest ih =>
    by_cases he : e.1 = k
    · simp [mapSet, he, mapGet]
    · simp [mapSet, he, mapGet, ih]

theorem mapGet_mapSet_ne (m : List (P × A)) (k p : P) (a : A) (h : p ≠ k) :
    mapGet (mapSet m k a) p = mapGet m p := by
  have hkp : ¬(k = p) := fun hk => h hk.symm
  induction m with
  | nil => simp [mapSet, mapGet, hkp]
  | cons e rest ih =>
    simp only [mapSet]
    by_cases he : e.1 = k
    · rw [if_pos he]
      have hep : ¬(e.1 = p) := fun hp => h ((hp ▸ he : p = k))
      simp only [mapGet]
      rw [if_neg hkp, if_neg hep]
    · rw [if_neg he]
      simp only [mapGet]
      by_cases hp : e.1 = p
      · rw [if_pos hp, if_pos hp]
      · rw [if_neg hp, if_neg hp]
        exact ih

theorem mapSet_keys (m : List (P × A)) (k : P) (a : A)
    (h : k ∈ m.map Prod.fst) :
    (mapSet m k a).map Prod.fst = m.map Prod.fst := by
  induction m with
  | nil => simp at h
  | cons e rest ih =>
    simp only [mapSet]
    by_cases he : e.1 = k
    · rw [if_pos he]
      simp [he]
    · rw [if_neg he]
      have hk : k ∈ rest.map Prod.fst := by
        rcases List.mem_map.mp h with ⟨x, hx, hfst⟩
        rcases List.mem_cons.mp hx with hx2 | hx2
        · exact absurd (hx2 ▸ hfst) he
        · exact List.mem_map.mpr ⟨x, hx2, hfst⟩
      simp [ih hk]

theorem mapGet_eq_none_iff (m : List (P × A)) (k : P) :
    mapGet m k = none ↔ k ∉ m.map Prod.fst := by
  induction m with
  | nil => simp [mapGet]
  | cons e rest ih =>
    simp only [mapGet, List.map_cons, List.mem_cons]
    by_cases he : e.1 = k
    · rw [if_pos he]
      simp [he]
    · rw [if_neg he]
      have hke : ¬(k = e.1) := fun hk => he hk.symm
      simp [ih, hke]

theorem mapGet_isSome_of_mem (m : List (P × A)) (k : P)
    (h : k ∈ m.map Prod.fst) : (mapGet m k).isSome = true := by
  rcases ho : mapGet m k with _ | a
  · exact absurd ((mapGet_eq_none_iff m k).mp ho) (by simp [h])
  · rfl

theorem mapGet_mem (m : List (P × A)) (k : P) (a : A)
    (h : mapGet m k = some a) : (k, a) ∈ m := by
  induction m with
  | nil => simp [mapGet] at h
  | cons e rest ih =>
    simp only [mapGet] at h
    by_cases he : e.1 = k
    · rw [if_pos he] at h
      have h2 : e.2 = a := Option.some.inj h
      have : (k, a) = e := by
        rw [← he, ← h2]
      rw [List.mem_cons]
      exact Or.inl this
    · rw [if_neg he] at h
      exact List.mem_cons_of_mem _ (ih h)

theorem mapGet_of_mem_nodup (m : List (P × A)) (k : P) (a : A)
    (hnd : (m.map Prod.fst).Nodup) (h : (k, a) ∈ m) : mapGet m k = some a := by
  induction m with
  | nil => simp at h
  | cons e rest ih =>
    rcases List.mem_cons.mp h with h2 | h2
    · simp [← h2, mapGet]
    · have hk : k ∈ rest.map Prod.fst :=
        List.mem_map.mpr ⟨(k, a), h2, rfl⟩
      have he : ¬(e.1 = k) := by
        intro hek
        exact (List.nodup_cons.mp (by simpa using hnd)).1 (hek ▸ hk)
      simp only [mapGet]
      rw [if_neg he]
      exact ih (List.nodup_cons.mp (by simpa using hnd)).2 h2

theorem mapGet_map_const {B : Type} (m : List (P × A)) (p : P) (c : B) :
    mapGet (m.map fun pt => (pt.1, c)) p = (mapGet m p).map fun _ => c := by
  induction m with
  | nil => simp [mapGet]
  | cons e rest ih =>
    simp only [List.map_cons, mapGet]
    by_cases he : e.1 = p
    · rw [if_pos he, if_pos he]
      rfl
    · rw [if_neg he, if_neg he]
      exact ih

theorem keys_map_const {B : Type} (m : List (P × A)) (c : B) :
    ((m.map fun pt => (pt.1, c)).map Prod.fst) = m.map Prod.fst := by
  simp

theorem allSatisfied_false_of_get {V : Type} (m : List (P × (Bool × Term V)))
    (k : P) (tm : Term V) (h : mapGet m k = some (false, tm)) :
    allSatisfied m = false := by
  induction m with
  | nil => simp [mapGet] at h
  | cons e rest ih =>
    simp only [mapGet] at h
    simp only [allSatisfied, List.all_cons]
    by_cases he : e.1 = k
    · rw [if_pos he] at h
      have h2 : e.2 = (false, tm) := Option.some.inj h
      rw [h2]
      rfl
    · rw [if_neg he] at h
      have : allSatisfied rest = false := ih h
      simp only [allSatisfied] at this
      rw [this, Bool.and_false]

end MapLemmas

section SatLemmas

variable {P V : Type} [DecidableEq P] [DecidableEq V] [Fintype V]

theorem accumInter_nil (seed : Term V) (p : P) :
    accumInter seed p ([] : List (ℕ × Assignment P V)) = seed := rfl

theorem accumInter_cons (seed : Term V) (p : P) (la : ℕ × Assignment P V)
    (rest : List (ℕ × Assignment P V)) :
    accumInter seed p (la :: rest) =
      accumInter
        (if la.2.package = p then seed.intersection la.2.as_term else seed) p
        rest := by
  simp only [accumInter, List.foldl_cons]

theorem accumInter_append_single (seed : Term V) (p : P)
    (l : List (ℕ × Assignment P V)) (la : ℕ × Assignment P V) :
    accumInter seed p (l ++ [la]) =
      if la.2.package = p then
        (accumInter seed p l).intersection la.2.as_term
      else accumInter seed p l := by
  simp only [accumInter, List.foldl_append, List.foldl_cons, List.foldl_nil]

theorem accumInter_eq (seed : Term V) (p : P)
    (hist : List (ℕ × Assignment P V)) :
    accumInter seed p hist =
      seed.intersection (Term.intersect_all (assignmentTermsFor p hist)) := by
  induction hist generalizing seed with
  | nil =>
    simp [accumInter, assignmentTermsFor, Term.intersect_all, Term.inter_any]
  | cons la rest ih =>
    rw [accumInter_cons]
    by_cases hp : la.2.package = p
    · rw [if_pos hp, ih]
      have hterms : assignmentTermsFor p (la :: rest) =
          la.2.as_term :: assignmentTermsFor p rest := by
        simp [assignmentTermsFor, hp]
      rw [hterms]
      simp only [Term.intersect_all, List.foldl_cons]
      rw [Term.any_inter]
      rw [Term.inter_foldl, Term.inter_foldl, Term.inter_any]
    · rw [if_neg hp, ih]
      have hterms : assignmentTermsFor p (la :: rest) =
          assignmentTermsFor p rest := by
        simp [assignmentTermsFor, hp]
      rw [hterms]

theorem satisfiesIncompat_eq (inc : Incompatibility P V)
    (hist : List (ℕ × Assignment P V)) :
    satAtB (fun _ => Term.any) inc hist = satisfiesIncompat inc hist := by
  apply list_all_congr
  intro pt _
  rw [accumInter_eq, Term.any_inter]

theorem satisfiesWithSatisfier_eq (inc : Incompatibility P V)
    (satisfier : Assignment P V) (hist : List (ℕ × Assignment P V)) :
    satAtB (prevSeed satisfier) inc hist =
      satisfiesWithSatisfier inc satisfier hist := by
  apply list_all_congr
  intro pt _
  rw [accumInter_eq]
  rfl

theorem satAtB_append_single_true (seed : P → Term V) (inc : Incompatibility P V)
    (l : List (ℕ × Assignment P V)) (la : ℕ × Assignment P V)
    (h : satAtB seed inc l = true) : satAtB seed inc (l ++ [la]) = true := by
  simp only [satAtB, List.all_eq_true] at h ⊢
  intro pt hpt
  have h1 := h pt hpt
  rw [accumInter_append_single]
  by_cases hp : la.2.package = pt.1
  · rw [if_pos hp]
    exact Term.subset_inter _ _ _ h1
  · rw [if_neg hp]
    exact h1

theorem satAtB_mono (seed : P → Term V) (inc : Incompatibility P V)
    (l l2 : List (ℕ × Assignment P V)) (h : satAtB seed inc l = true) :
    satAtB seed inc (l ++ l2) = true := by
  induction l2 using List.reverseRecOn with
  | nil => simpa using h
  | append_singleton l2 la ih =>
    rw [← List.append_assoc]
    exact satAtB_append_single_true seed inc (l ++ l2) la ih

end SatLemmas

section CharLemmas

variable {P V : Type} [DecidableEq P] [DecidableEq V] [Fintype V]

theorem allSat_eq_satAtB (seed : P → Term V) (inc : Incompatibility P V)
    (done : List (ℕ × Assignment P V)) (accum : List (P × (Bool × Term V)))
    (hnd : (inc.terms.map Prod.fst).Nodup)
    (hk : accum.map Prod.fst = inc.terms.map Prod.fst)
    (hinv : AccInv seed inc done accum) :
    allSatisfied accum = satAtB seed inc done := by
  have hnd2 : (accum.map Prod.fst).Nodup := by rw [hk]; exact hnd
  cases h1 : allSatisfied accum <;> cases h2 : satAtB seed inc done <;> try rfl
  · exfalso
    simp only [allSatisfied] at h1
    obtain ⟨e, hemem, hef⟩ := List.all_eq_false.mp h1
    have hkey : e.1 ∈ inc.terms.map Prod.fst := by
      rw [← hk]
      exact List.mem_map.mpr ⟨e, hemem, rfl⟩
    obtain ⟨pt, hptmem, hptfst⟩ := List.mem_map.mp hkey
    have hit : inc.get pt.1 = some pt.2 :=
      mapGet_of_mem_nodup inc.terms pt.1 pt.2 hnd hptmem
    have hget : mapGet accum e.1 = some e.2 :=
      mapGet_of_mem_nodup accum e.1 e.2 hnd2
        (by rcases e with ⟨p, x⟩; exact hemem)
    have hstat := hinv e.1 e.2.1 e.2.2 (by rw [hget]) pt.2 (hptfst ▸ hit)
    have hsat2 := (List.all_eq_true.mp h2) pt hptmem
    rw [hptfst] at hsat2
    rw [hsat2] at hstat
    exact hef (by rw [hstat.1])
  · exfalso
    simp only [satAtB] at h2
    obtain ⟨pt, hptmem, hptf⟩ := List.all_eq_false.mp h2
    have hit : inc.get pt.1 = some pt.2 :=
      mapGet_of_mem_nodup inc.terms pt.1 pt.2 hnd hptmem
    have hkey : pt.1 ∈ accum.map Prod.fst := by
      rw [hk]
      exact List.mem_map.mpr ⟨pt, hptmem, rfl⟩
    rcases hga : mapGet accum pt.1 with _ | btm
    · exact absurd hkey ((mapGet_eq_none_iff accum pt.1).mp hga)
    · have hstat := hinv pt.1 btm.1 btm.2 (by rw [hga]) pt.2 hit
      have hbm : (pt.1, btm) ∈ accum := mapGet_mem accum pt.1 btm hga
      have hbt : btm.1 = true := (List.all_eq_true.mp h1) (pt.1, btm) hbm
      rw [hbt] at hstat
      exact hptf (by rw [← hstat.1])

theorem charSome_shift (seed : P → Term V) (inc : Incompatibility P V)
    (la : ℕ × Assignment P V) (rest done : List (ℕ × Assignment P V))
    (ix0 : ℕ × (ℕ × Assignment P V))
    (h1 : satAtB seed inc (done ++ [la]) = false)
    (hc : CharSome seed inc (done ++ [la]) rest ix0) :
    CharSome seed inc done (la :: rest) (ix0.1 + 1, ix0.2) := by
  obtain ⟨h, hget, hsome, hsat, hmin⟩ := hc
  refine ⟨by simpa using Nat.succ_lt_succ h, ?_, hsome, ?_, ?_⟩
  · exact hget
  · rw [List.take_succ_cons,
      show done ++ la :: rest.take (ix0.1 + 1) =
        (done ++ [la]) ++ rest.take (ix0.1 + 1) by simp]
    exact hsat
  · intro k hk
    cases k with
    | zero =>
      simpa using h1
    | succ k2 =>
      have hk2 : k2 < ix0.1 := Nat.lt_of_succ_lt_succ hk
      rw [List.take_succ_cons,
        show done ++ la :: rest.take (k2 + 1) =
          (done ++ [la]) ++ rest.take (k2 + 1) by simp]
      exact hmin k2 hk2

theorem charNone_shift (seed : P → Term V) (inc : Incompatibility P V)
    (la : ℕ × Assignment P V) (rest done : List (ℕ × Assignment P V))
    (h1 : satAtB seed inc (done ++ [la]) = false)
    (hc : CharNone seed inc (done ++ [la]) rest) :
    CharNone seed inc done (la :: rest) := by
  intro k hk
  cases k with
  | zero =>
    simpa using h1
  | succ k2 =>
    rw [List.take_succ_cons,
      show done ++ la :: rest.take (k2 + 1) =
        (done ++ [la]) ++ rest.take (k2 + 1) by simp]
    exact hc k2 (by simpa using Nat.lt_of_succ_lt_succ hk)

theorem fsAux_nil (inc : Incompatibility P V)
    (accum : List (P × (Bool × Term V))) : fsAux inc accum [] = none := rfl

theorem fsAux_cons (inc : Incompatibility P V)
    (accum : List (P × (Bool × Term V))) (la : ℕ × Assignment P V)
    (rest : List (ℕ × Assignment P V)) :
    fsAux inc accum (la :: rest) =
      match inc.get la.2.package with
      | none => (fsAux inc accum rest).map fun ix => (ix.1 + 1, ix.2)
      | some incompat_term =>
        match mapGet accum la.2.package with
        | none => none
        | some (true, _) => (fsAux inc accum rest).map fun ix => (ix.1 + 1, ix.2)
        | some (false, accum_term) =>
          if (accum_term.intersection la.2.as_term).subset_of incompat_term &&
              allSatisfied
                (mapSet accum la.2.package
                  ((accum_term.intersection la.2.as_term).subset_of incompat_term,
                    accum_term.intersection la.2.as_term)) then
            some (0, la)
          else
            (fsAux inc
                (mapSet accum la.2.package
                  ((accum_term.intersection la.2.as_term).subset_of incompat_term,
                    accum_term.intersection la.2.as_term))
                rest).map
              fun ix => (ix.1 + 1, ix.2) := rfl

theorem char_lift (seed : P → Term V) (inc : Incompatibility P V)
    (la : ℕ × Assignment P V) (rest done : List (ℕ × Assignment P V))
    (o : Option (ℕ × (ℕ × Assignment P V)))
    (h1 : satAtB seed inc (done ++ [la]) = false)
    (hsome : ∀ ix, o = some ix → CharSome seed inc (done ++ [la]) rest ix)
    (hnone : o = none → CharNone seed inc (done ++ [la]) rest) :
    (∀ ix, (o.map fun ix => (ix.1 + 1, ix.2)) = some ix →
        CharSome seed inc done (la :: rest) ix) ∧
    ((o.map fun ix => (ix.1 + 1, ix.2)) = none →
        CharNone seed inc done (la :: rest)) := by
  constructor
  · intro ix hix
    rcases o with _ | ix0
    · simp at hix
    · simp only [Option.map_some'] at hix
      rw [← Option.some.inj hix]
      exact charSome_shift seed inc la rest done ix0 h1 (hsome ix0 rfl)
  · intro hno
    rcases o with _ | ix0
    · exact charNone_shift seed inc la rest done h1 (hnone rfl)
    · simp at hno

theorem fsAux_char (seed : P → Term V) (inc : Incompatibility P V)
    (hnd : (inc.terms.map Prod.fst).Nodup) :
    ∀ (rest done : List (ℕ × Assignment P V))
      (accum : List (P × (Bool × Term V))),
      accum.map Prod.fst = inc.terms.map Prod.fst →
      AccInv seed inc done accum →
      satAtB seed inc done = false →
      (∀ ix, fsAux inc accum rest = some ix → CharSome seed inc done rest ix) ∧
      (fsAux inc accum rest = none → CharNone seed inc done rest) := by
  intro rest
  induction rest with
  | nil =>
    intro done accum hk hinv hdone
    refine ⟨?_, ?_⟩
    · intro ix hix
      rw [fsAux_nil] at hix
      cases hix
    · intro _ k hklt
      simp at hklt
  | cons la rest ih =>
    intro done accum hk hinv hdone
    rw [fsAux_cons]
    rcases hg : inc.get la.2.package with _ | incompat_term
    · dsimp only
      have hstep : ∀ pt ∈ inc.terms,
          accumInter (seed pt.1) pt.1 (done ++ [la]) =
            accumInter (seed pt.1) pt.1 done := by
        intro pt hpt
        rw [accumInter_append_single]
        have hne : ¬(la.2.package = pt.1) := by
          intro hpp
          have hit : inc.get pt.1 = some pt.2 :=
            mapGet_of_mem_nodup _ _ _ hnd hpt
          rw [← hpp, hg] at hit
          cases hit
        rw [if_neg hne]
      have hsat1 : satAtB seed inc (done ++ [la]) = satAtB seed inc done := by
        apply list_all_congr
        intro pt hpt
        rw [hstep pt hpt]
      have hinv1 : AccInv seed inc (done ++ [la]) accum := by
        intro p b tm hget it hit
        have hpt : (p, it) ∈ inc.terms := mapGet_mem _ _ _ hit
        have := hstep (p, it) hpt
        simp only at this
        rw [this]
        exact hinv p b tm hget it hit
      have hfalse : satAtB seed inc (done ++ [la]) = false := by
        rw [hsat1]; exact hdone
      have hih := ih (done ++ [la]) accum hk hinv1 hfalse
      exact char_lift seed inc la rest done _ hfalse hih.1 hih.2
    · dsimp only
      have hmem : la.2.package ∈ accum.map Prod.fst := by
        rw [hk]
        exact List.mem_map.mpr
          ⟨(la.2.package, incompat_term), mapGet_mem _ _ _ hg, rfl⟩
      rcases hga : mapGet accum la.2.package with _ | btm
      · exact absurd hmem
          (by simpa using (mapGet_eq_none_iff accum la.2.package).mp hga)
      · obtain ⟨b, accum_term⟩ := btm
        cases b with
        | true =>
          dsimp only
          have hstat :=
            (hinv la.2.package true accum_term hga incompat_term hg).1
          have hstep : satAtB seed inc (done ++ [la]) = satAtB seed inc done := by
            apply list_all_congr
            intro pt hpt
            have hit : inc.get pt.1 = some pt.2 :=
              mapGet_of_mem_nodup _ _ _ hnd hpt
            rw [accumInter_append_single]
            by_cases hp : la.2.package = pt.1
            · rw [if_pos hp]
              have hit2 : incompat_term = pt.2 := by
                rw [← hp, hg] at hit
                exact Option.some.inj hit
              have hold : (accumInter (seed pt.1) pt.1 done).subset_of pt.2 =
                  true := by
                rw [← hit2, ← hp]
                exact hstat.symm
              have hnew :=
                Term.subset_inter (accumInter (seed pt.1) pt.1 done)
                  la.2.as_term pt.2 hold
              rw [hnew, hold]
            · rw [if_neg hp]
          have hinv1 : AccInv seed inc (done ++ [la]) accum := by
            intro p b2 tm hget it hit
            by_cases hp : la.2.package = p
            · subst hp
              rw [hga] at hget
              have hpair := Option.some.inj hget
              have hb2 : true = b2 := congrArg Prod.fst hpair
              have hit2 : incompat_term = it := by
                rw [hg] at hit
                exact Option.some.inj hit
              rw [accumInter_append_single, if_pos rfl]
              constructor
              · have hnew :=
                  Term.subset_inter
                    (accumInter (seed la.2.package) la.2.package done)
                    la.2.as_term incompat_term hstat.symm
                rw [← hit2, hnew, ← hb2]
              · intro hbf
                rw [← hb2] at hbf
                cases hbf
            · rw [accumInter_append_single, if_neg hp]
              exact hinv p b2 tm hget it hit
          have hfalse : satAtB seed inc (done ++ [la]) = false := by
            rw [hstep]; exact hdone
          have hih := ih (done ++ [la]) accum hk hinv1 hfalse
          exact char_lift seed inc la rest done _ hfalse hih.1 hih.2
        | false =>
          dsimp only
          have hinv0 := hinv la.2.package false accum_term hga incompat_term hg
          have htm : accum_term =
              accumInter (seed la.2.package) la.2.package done :=
            hinv0.2 rfl
          have hacc_new :
              accumInter (seed la.2.package) la.2.package (done ++ [la]) =
                accum_term.intersection la.2.as_term := by
            rw [accumInter_append_single, if_pos rfl, ← htm]
          set nt := accum_term.intersection la.2.as_term with hnt
          set sat2 := nt.subset_of incompat_term with hsat2
          set m2 := mapSet accum la.2.package (sat2, nt) with hm2
          have hk2 : m2.map Prod.fst = inc.terms.map Prod.fst := by
            rw [hm2, mapSet_keys accum _ _ hmem, hk]
          have hinv2 : AccInv seed inc (done ++ [la]) m2 := by
            intro p b2 tm hget it hit
            by_cases hp : p = la.2.package
            · subst hp
              rw [hm2, mapGet_mapSet_self] at hget
              have hpair := Option.some.inj hget
              have hb2 : sat2 = b2 := congrArg Prod.fst hpair
              have htm2 : nt = tm := congrArg Prod.snd hpair
              have hit2 : incompat_term = it := by
                rw [hg] at hit
                exact Option.some.inj hit
              rw [hacc_new, ← hit2]
              constructor
              · rw [← hb2]
              · intro _
                exact htm2.symm
            · have hne : ¬(la.2.package = p) := fun hpp => hp hpp.symm
              rw [hm2, mapGet_mapSet_ne accum la.2.package p _ hp] at hget
              rw [accumInter_append_single, if_neg hne]
              exact hinv p b2 tm hget it hit
          have hall : allSatisfied m2 = satAtB seed inc (done ++ [la]) :=
            allSat_eq_satAtB seed inc (done ++ [la]) m2 hnd hk2 hinv2
          cases hsg : satAtB seed inc (done ++ [la]) with
          | true =>
            have hptmem : (la.2.package, incompat_term) ∈ inc.terms :=
              mapGet_mem _ _ _ hg
            have hsat_true : sat2 = true := by
              have hthis := (List.all_eq_true.mp hsg)
                (la.2.package, incompat_term) hptmem
              simp only at hthis
              rw [hacc_new] at hthis
              rw [hsat2, hnt]
              exact hthis
            have hgd : (sat2 && allSatisfied m2) = true := by
              rw [hsat_true, hall, hsg]
              rfl
            rw [if_pos hgd]
            constructor
            · intro ix hix
              rw [← Option.some.inj hix]
              refine ⟨by simp, rfl, ?_, ?_, ?_⟩
              · rw [hg]
                rfl
              · simpa using hsg
              · intro k hkk
                exact absurd hkk (Nat.not_lt_zero k)
            · intro hno
              cases hno
          | false =>
            have hgd : ¬((sat2 && allSatisfied m2) = true) := by
              rw [hall, hsg, Bool.and_false]
              simp
            rw [if_neg hgd]
            have hih := ih (done ++ [la]) m2 hk2 hinv2 hsg
            exact char_lift seed inc la rest done _ hsg hih.1 hih.2

end CharLemmas

section SatisfierLemmas

variable {P V : Type} [DecidableEq P] [DecidableEq V] [Fintype V]

theorem new_accum_keys (inc : Incompatibility P V) :
    (new_accum_satisfied_from inc).map Prod.fst = inc.terms.map Prod.fst :=
  keys_map_const inc.terms (false, Term.any)

theorem mapGet_new_accum (inc : Incompatibility P V) (p : P) :
    mapGet (new_accum_satisfied_from inc) p =
      (inc.get p).map fun _ => (false, Term.any) :=
  mapGet_map_const inc.terms p (false, Term.any)

theorem accInv_new_accum (inc : Incompatibility P V)
    (hnt : ∀ pt ∈ inc.terms, pt.2 ≠ Term.any) :
    AccInv (fun _ => Term.any) inc [] (new_accum_satisfied_from inc) := by
  intro p b tm hget it hit
  rw [mapGet_new_accum, hit] at hget
  simp only [Option.map_some'] at hget
  have hpair := Option.some.inj hget
  have hb : false = b := congrArg Prod.fst hpair
  have htm : (Term.any : Term V) = tm := congrArg Prod.snd hpair
  rw [accumInter_nil]
  constructor
  · rw [← hb]
    have hmem : (p, it) ∈ inc.terms := mapGet_mem _ _ _ hit
    have hne := hnt (p, it) hmem
    cases hs : (Term.any : Term V).subset_of it
    · rfl
    · exact absurd ((Term.any_subset_iff it).mp hs) hne
  · intro _
    exact htm.symm

theorem satAtB_nil_any_false (inc : Incompatibility P V)
    (hne : inc.terms ≠ []) (hnt : ∀ pt ∈ inc.terms, pt.2 ≠ Term.any) :
    satAtB (fun _ => Term.any) inc [] = false := by
  cases h : satAtB (fun _ => Term.any) inc ([] : List (ℕ × Assignment P V))
  · rfl
  · exfalso
    obtain ⟨pt, hpt⟩ := List.exists_mem_of_ne_nil inc.terms hne
    have := (List.all_eq_true.mp h) pt hpt
    simp only at this
    rw [accumInter_nil] at this
    exact hnt pt hpt ((Term.any_subset_iff pt.2).mp this)

theorem find_satisfier_char (inc : Incompatibility P V)
    (hist : List (ℕ × Assignment P V))
    (hnd : (inc.terms.map Prod.fst).Nodup)
    (hnt : ∀ pt ∈ inc.terms, pt.2 ≠ Term.any)
    (hne : inc.terms ≠ []) :
    (∀ ix, fsAux inc (new_accum_satisfied_from inc) hist = some ix →
        CharSome (fun _ => Term.any) inc [] hist ix) ∧
    (fsAux inc (new_accum_satisfied_from inc) hist = none →
        CharNone (fun _ => Term.any) inc [] hist) :=
  fsAux_char (fun _ => Term.any) inc hnd hist [] (new_accum_satisfied_from inc)
    (new_accum_keys inc) (accInv_new_accum inc hnt)
    (satAtB_nil_any_false inc hne hnt)

end SatisfierLemmas

section Claim1

variable {P V : Type} [DecidableEq P] [DecidableEq V] [Fintype V]

/-- C1: for every incompatibility I (at least one package entry, no duplicate
packages, non-trivial per-package terms, per the data-model invariants) and
every partial-solution history containing a prefix satisfying I,
`find_satisfier_and_previous_satisfier_level` returns the earliest assignment
S in the history such that the set of assignments up to and including S
satisfies I — the per-package intersection of their terms makes
`relation(I) = Satisfied` — together with S's decision level. -/
theorem claim_C1 (inc : Incompatibility P V) (ps : PartialSolution P V)
    (hnd : (inc.terms.map Prod.fst).Nodup)
    (hnt : ∀ pt ∈ inc.terms, pt.2 ≠ Term.any)
    (hne : inc.terms ≠ [])
    (hsat : ∃ i, ∃ _ : i < ps.history.length,
        satisfiesIncompat inc (ps.history.take (i + 1)) = true) :
    ∃ j, ∃ h : j < ps.history.length, ∃ plevel,
      find_satisfier_and_previous_satisfier_level inc ps =
        some ((ps.history.get ⟨j, h⟩).2, (ps.history.get ⟨j, h⟩).1, plevel) ∧
      satisfiesIncompat inc (ps.history.take (j + 1)) = true ∧
      ∀ k, k < j → satisfiesIncompat inc (ps.history.take (k + 1)) = false := by
  rcases hx : fsAux inc (new_accum_satisfied_from inc) ps.history with _ | ix
  · exfalso
    obtain ⟨i, hi, hsi⟩ := hsat
    have hcn := (find_satisfier_char inc ps.history hnd hnt hne).2 hx i hi
    rw [List.nil_append, satisfiesIncompat_eq] at hcn
    rw [hcn] at hsi
    cases hsi
  · obtain ⟨i1, lvl, satA⟩ := ix
    have hcs := (find_satisfier_char inc ps.history hnd hnt hne).1 _ hx
    obtain ⟨h, hget, hisSome, hsatT, hmin⟩ := hcs
    obtain ⟨itS, hitS⟩ := Option.isSome_iff_exists.mp hisSome
    have hfs : find_satisfier inc ps.history =
        some ((lvl, satA), ps.history.take i1) := by
      unfold find_satisfier find_satisfier_helper
      rw [hx]
      rfl
    obtain ⟨pl, hpl⟩ :
        ∃ pl, find_previous_satisfier inc satA (ps.history.take i1) = some pl := by
      unfold find_previous_satisfier
      rw [hitS]
      exact ⟨_, rfl⟩
    refine ⟨i1, h, pl, ?_, ?_, ?_⟩
    · unfold find_satisfier_and_previous_satisfier_level
      rw [hfs]
      dsimp only
      rw [hpl]
      dsimp only
      rw [← hget]
    · rw [← satisfiesIncompat_eq]
      simpa using hsatT
    · intro k hk
      rw [← satisfiesIncompat_eq]
      simpa using hmin k hk

end Claim1

/-- Witness evaluating `claim_C1` on a concrete incompatibility and history:
every hypothesis is discharged on the concrete input. -/
theorem claim_C1_witness :
    ((incW.terms.map Prod.fst).Nodup ∧
      (∀ pt ∈ incW.terms, pt.2 ≠ Term.any) ∧
      incW.terms ≠ [] ∧
      satisfiesIncompat incW (psW.history.take 1) = true) ∧
    (∃ j, ∃ h : j < psW.history.length, ∃ plevel,
      find_satisfier_and_previous_satisfier_level incW psW =
        some ((psW.history.get ⟨j, h⟩).2, (psW.history.get ⟨j, h⟩).1, plevel) ∧
      satisfiesIncompat incW (psW.history.take (j + 1)) = true ∧
      ∀ k, k < j → satisfiesIncompat incW (psW.history.take (k + 1)) = false) :=
  ⟨⟨by decide, by decide, by decide, by decide⟩,
    claim_C1 incW psW (by decide) (by decide) (by decide)
      ⟨0, by decide, by decide⟩⟩

section Claim9

variable {P V : Type} [DecidableEq P] [DecidableEq V] [Fintype V]

/-- C9: for every incompatibility I (satisfying the data-model invariants)
and every partial solution whose memory agrees with its history, if the
partial solution's relation to I is Satisfied — the unit-propagation conflict
precondition — then `find_satisfier` returns `some`, so the
`expect("We should always find a satisfier...")` branch of
`find_satisfier_and_previous_satisfier_level` is unreachable. -/
theorem claim_C9 (inc : Incompatibility P V) (ps : PartialSolution P V)
    (hnd : (inc.terms.map Prod.fst).Nodup)
    (hnt : ∀ pt ∈ inc.terms, pt.2 ≠ Term.any)
    (hne : inc.terms ≠ [])
    (hmem : MemoryAgrees ps)
    (hsat : ps.relationSatisfied inc = true) :
    (find_satisfier inc ps.history).isSome = true := by
  have hfull : satisfiesIncompat inc ps.history = true := by
    unfold PartialSolution.relationSatisfied at hsat
    unfold satisfiesIncompat
    have hcong : ∀ pt ∈ inc.terms,
        ((ps.memory.term_intersection_for_package pt.1).subset_of pt.2) =
          ((Term.intersect_all (assignmentTermsFor pt.1 ps.history)).subset_of
            pt.2) := by
      intro pt _
      rw [hmem pt.1]
    rw [← list_all_congr hcong]
    exact hsat
  rcases hx : fsAux inc (new_accum_satisfied_from inc) ps.history with _ | ix
  · exfalso
    have hcn := (find_satisfier_char inc ps.history hnd hnt hne).2 hx
    have hlen : ps.history.length ≠ 0 := by
      intro h0
      have hnill : ps.history = [] := List.length_eq_zero.mp h0
      rw [hnill] at hfull
      have hzero := satAtB_nil_any_false inc hne hnt
      rw [satisfiesIncompat_eq] at hzero
      rw [hzero] at hfull
      cases hfull
    have hpos : 0 < ps.history.length := Nat.pos_of_ne_zero hlen
    have hlt : ps.history.length - 1 < ps.history.length :=
      Nat.sub_lt hpos one_pos
    have hk := hcn (ps.history.length - 1) hlt
    rw [List.nil_append] at hk
    have htake : ps.history.take (ps.history.length - 1 + 1) = ps.history := by
      rw [Nat.sub_add_cancel hpos]
      exact List.take_length ps.history
    rw [htake, satisfiesIncompat_eq] at hk
    rw [hk] at hfull
    cases hfull
  · unfold find_satisfier find_satisfier_helper
    rw [hx]
    rfl

end Claim9

/-- Witness evaluating `claim_C9` on a concrete incompatibility and partial
solution: every hypothesis is discharged on the concrete input. -/
theorem claim_C9_witness :
    ((incW.terms.map Prod.fst).Nodup ∧
      (∀ pt ∈ incW.terms, pt.2 ≠ Term.any) ∧
      incW.terms ≠ [] ∧
      MemoryAgrees psW ∧
      psW.relationSatisfied incW = true) ∧
    (find_satisfier incW psW.history).isSome = true :=
  ⟨⟨by decide, by decide, by decide, by unfold MemoryAgrees; decide, by decide⟩,
    claim_C9 incW psW (by decide) (by decide) (by decide)
      (by unfold MemoryAgrees; decide) (by decide)⟩

section Claim4

variable {P V : Type} [DecidableEq P] [DecidableEq V] [Fintype V]

theorem fsAux_none_of_flags_true (inc : Incompatibility P V)
    (accum : List (P × (Bool × Term V)))
    (hk : accum.map Prod.fst = inc.terms.map Prod.fst)
    (hflags : ∀ p b tm, mapGet accum p = some (b, tm) → b = true) :
    ∀ l, fsAux inc accum l = none := by
  intro l
  induction l with
  | nil => rfl
  | cons la rest ih =>
    rw [fsAux_cons]
    rcases hg : inc.get la.2.package with _ | it
    · dsimp only
      rw [ih]
      rfl
    · dsimp only
      have hmemk : la.2.package ∈ accum.map Prod.fst := by
        rw [hk]
        exact List.mem_map.mpr ⟨(la.2.package, it), mapGet_mem _ _ _ hg, rfl⟩
      rcases hga : mapGet accum la.2.package with _ | btm
      · exact absurd hmemk
          (by simpa using (mapGet_eq_none_iff accum la.2.package).mp hga)
      · obtain ⟨b, tm⟩ := btm
        have hb := hflags _ _ _ hga
        subst hb
        dsimp only
        rw [ih]
        rfl

theorem terms_singleton_of_keys_eq (inc : Incompatibility P V) (pkg : P)
    (itS : Term V) (hnd : (inc.terms.map Prod.fst).Nodup)
    (hget : inc.get pkg = some itS)
    (hall : ∀ pt ∈ inc.terms, pt.1 = pkg) :
    inc.terms = [(pkg, itS)] := by
  rcases hterms : inc.terms with _ | ⟨e, rest⟩
  · rw [Incompatibility.get, hterms] at hget
    cases hget
  · have he1 : e.1 = pkg := hall e (by rw [hterms]; exact List.mem_cons_self e rest)
    have hrest : rest = [] := by
      rcases hr : rest with _ | ⟨e2, r2⟩
      · rfl
      · exfalso
        have he2 : e2.1 = pkg := hall e2 (by rw [hterms, hr]; simp)
        rw [hterms, hr] at hnd
        simp only [List.map_cons, List.nodup_cons] at hnd
        exact hnd.1 (by rw [he1, he2]; exact List.mem_cons_self _ _)
    subst hrest
    have he2 : e.2 = itS := by
      rw [Incompatibility.get, hterms] at hget
      simp only [mapGet] at hget
      rw [if_pos he1] at hget
      exact Option.some.inj hget
    rw [← he1, ← he2]

/-- C4: for every incompatibility I (satisfying the data-model invariants),
satisfier S whose package appears in I, and previous-assignments prefix whose
first entry is at level at most 1 (as in any history replayed from empty),
`find_previous_satisfier` returns the decision level (clamped to at least 1)
of the earliest assignment such that the prefix up to and including it, plus
S alone contributing its term on S's package, satisfies I; and returns 1 when
no such assignment exists. -/
theorem claim_C4 (inc : Incompatibility P V) (S : Assignment P V)
    (prev : List (ℕ × Assignment P V)) (itS : Term V)
    (hmemS : inc.get S.package = some itS)
    (hnd : (inc.terms.map Prod.fst).Nodup)
    (hnt : ∀ pt ∈ inc.terms, pt.2 ≠ Term.any)
    (hfirst : ∀ la ∈ prev.head?, (la : ℕ × Assignment P V).1 ≤ 1) :
    ((∃ i, ∃ _ : i < prev.length,
        satisfiesWithSatisfier inc S (prev.take (i + 1)) = true) →
      ∃ i, ∃ h : i < prev.length,
        satisfiesWithSatisfier inc S (prev.take (i + 1)) = true ∧
        (∀ k, k < i → satisfiesWithSatisfier inc S (prev.take (k + 1)) = false) ∧
        find_previous_satisfier inc S prev =
          some (max (prev.get ⟨i, h⟩).1 1)) ∧
    ((∀ i, ∀ _ : i < prev.length,
        satisfiesWithSatisfier inc S (prev.take (i + 1)) = false) →
      find_previous_satisfier inc S prev = some 1) := by
  have hfp : find_previous_satisfier inc S prev =
      some (match fsAux inc
          (mapSet (new_accum_satisfied_from inc) S.package
            (S.as_term.subset_of itS, S.as_term)) prev with
        | none => 1
        | some (_, (level, _)) => max level 1) := by
    unfold find_previous_satisfier
    rw [hmemS]
    rfl
  have hmemkey : S.package ∈ (new_accum_satisfied_from inc).map Prod.fst := by
    rw [new_accum_keys]
    exact List.mem_map.mpr ⟨(S.package, itS), mapGet_mem _ _ _ hmemS, rfl⟩
  have hk0 : (mapSet (new_accum_satisfied_from inc) S.package
      (S.as_term.subset_of itS, S.as_term)).map Prod.fst =
      inc.terms.map Prod.fst := by
    rw [mapSet_keys _ _ _ hmemkey, new_accum_keys]
  have hinv0 : AccInv (prevSeed S) inc []
      (mapSet (new_accum_satisfied_from inc) S.package
        (S.as_term.subset_of itS, S.as_term)) := by
    intro p b tm hget it hit
    rw [accumInter_nil]
    by_cases hp : p = S.package
    · subst hp
      rw [mapGet_mapSet_self] at hget
      have hpair := Option.some.inj hget
      have hb : S.as_term.subset_of itS = b := congrArg Prod.fst hpair
      have htm : S.as_term = tm := congrArg Prod.snd hpair
      have hit2 : itS = it := by
        rw [hmemS] at hit
        exact Option.some.inj hit
      have hseedp : prevSeed S S.package = S.as_term := by
        simp [prevSeed]
      constructor
      · rw [← hb, ← hit2, hseedp]
      · intro _
        rw [← htm, hseedp]
    · rw [mapGet_mapSet_ne _ _ _ _ hp, mapGet_new_accum, hit] at hget
      simp only [Option.map_some'] at hget
      have hpair := Option.some.inj hget
      have hb : false = b := congrArg Prod.fst hpair
      have htm : (Term.any : Term V) = tm := congrArg Prod.snd hpair
      have hseedp : prevSeed S p = Term.any := by
        simp [prevSeed, hp]
      constructor
      · rw [← hb, hseedp]
        cases hs : (Term.any : Term V).subset_of it
        · rfl
        · exact absurd ((Term.any_subset_iff it).mp hs)
            (hnt (p, it) (mapGet_mem _ _ _ hit))
      · intro _
        rw [← htm, hseedp]
  cases hnil : satAtB (prevSeed S) inc ([] : List (ℕ × Assignment P V)) with
  | false =>
    have hchar := fsAux_char (prevSeed S) inc hnd prev []
      (mapSet (new_accum_satisfied_from inc) S.package
        (S.as_term.subset_of itS, S.as_term)) hk0 hinv0 hnil
    constructor
    · rintro ⟨i, hi, hsi⟩
      rcases hx : fsAux inc
          (mapSet (new_accum_satisfied_from inc) S.package
            (S.as_term.subset_of itS, S.as_term)) prev with _ | ix
      · exfalso
        have hk2 := hchar.2 hx i hi
        rw [List.nil_append, satisfiesWithSatisfier_eq] at hk2
        rw [hk2] at hsi
        cases hsi
      · obtain ⟨i1, lvl, aX⟩ := ix
        have hcs := hchar.1 _ hx
        obtain ⟨h, hget2, _, hsatT, hmin⟩ := hcs
        refine ⟨i1, h, ?_, ?_, ?_⟩
        · rw [← satisfiesWithSatisfier_eq]
          simpa using hsatT
        · intro k hk
          rw [← satisfiesWithSatisfier_eq]
          simpa using hmin k hk
        · rw [hfp, hx, ← hget2]
    · intro hallf
      rcases hx : fsAux inc
          (mapSet (new_accum_satisfied_from inc) S.package
            (S.as_term.subset_of itS, S.as_term)) prev with _ | ix
      · rw [hfp, hx]
      · exfalso
        obtain ⟨i1, lvl, aX⟩ := ix
        have hcs := hchar.1 _ hx
        obtain ⟨h, _, _, hsatT, _⟩ := hcs
        have hf := hallf i1 h
        rw [List.nil_append, satisfiesWithSatisfier_eq] at hsatT
        rw [hf] at hsatT
        cases hsatT
  | true =>
    have hallkeys : ∀ pt ∈ inc.terms, pt.1 = S.package := by
      intro pt hpt
      by_contra hp
      have ht := (List.all_eq_true.mp hnil) pt hpt
      simp only at ht
      rw [accumInter_nil] at ht
      have hseedp : prevSeed S pt.1 = Term.any := by
        simp [prevSeed, hp]
      rw [hseedp] at ht
      exact hnt pt hpt ((Term.any_subset_iff pt.2).mp ht)
    have hterms : inc.terms = [(S.package, itS)] :=
      terms_singleton_of_keys_eq inc S.package itS hnd hmemS hallkeys
    have hsatseed : S.as_term.subset_of itS = true := by
      have ht := (List.all_eq_true.mp hnil) (S.package, itS)
        (by rw [hterms]; simp)
      simp only at ht
      rw [accumInter_nil] at ht
      have hseedp : prevSeed S S.package = S.as_term := by
        simp [prevSeed]
      rw [hseedp] at ht
      exact ht
    have hnew0 : new_accum_satisfied_from inc =
        [(S.package, ((false : Bool), (Term.any : Term V)))] := by
      unfold new_accum_satisfied_from
      rw [hterms]
      rfl
    have haccum0 : mapSet (new_accum_satisfied_from inc) S.package
        (S.as_term.subset_of itS, S.as_term) =
        [(S.package, (true, S.as_term))] := by
      rw [hnew0, hsatseed]
      simp [mapSet]
    have hnone : fsAux inc
        (mapSet (new_accum_satisfied_from inc) S.package
          (S.as_term.subset_of itS, S.as_term)) prev = none := by
      apply fsAux_none_of_flags_true
      · rw [hk0]
      · intro p b tm hget
        rw [haccum0] at hget
        simp only [mapGet] at hget
        by_cases hps : S.package = p
        · rw [if_pos hps] at hget
          exact (congrArg Prod.fst (Option.some.inj hget)).symm
        · rw [if_neg hps] at hget
          cases hget
    constructor
    · rintro ⟨i, hi, _⟩
      have hlen0 : 0 < prev.length := lt_of_le_of_lt (Nat.zero_le i) hi
      have h0 : satisfiesWithSatisfier inc S (prev.take 1) = true := by
        rw [← satisfiesWithSatisfier_eq]
        have hm := satAtB_mono (prevSeed S) inc [] (prev.take 1) hnil
        simpa using hm
      refine ⟨0, hlen0, h0, ?_, ?_⟩
      · intro k hk
        exact absurd hk (Nat.not_lt_zero k)
      · rw [hfp, hnone]
        have hhead : prev.head? = some (prev.get ⟨0, hlen0⟩) := by
          rcases prev with _ | ⟨a, l⟩
          · simp at hlen0
          · rfl
        have hl0 := hfirst (prev.get ⟨0, hlen0⟩) (by rw [hhead]; rfl)
        rw [Nat.max_eq_right hl0]
    · intro _
      rw [hfp, hnone]

end Claim4

/-- Witness evaluating `claim_C4` on a concrete incompatibility, satisfier
and prefix: every hypothesis is discharged on the concrete input. -/
theorem claim_C4_witness :
    (incW.get satW.package = some (Term.Positive {0}) ∧
      (incW.terms.map Prod.fst).Nodup ∧
      (∀ pt ∈ incW.terms, pt.2 ≠ Term.any) ∧
      (∀ la ∈ prevW.head?, (la : ℕ × Assignment (Fin 2) (Fin 2)).1 ≤ 1) ∧
      satisfiesWithSatisfier incW satW (prevW.take 1) = true) ∧
    (∃ i, ∃ h : i < prevW.length,
      satisfiesWithSatisfier incW satW (prevW.take (i + 1)) = true ∧
      (∀ k, k < i → satisfiesWithSatisfier incW satW (prevW.take (k + 1)) = false) ∧
      find_previous_satisfier incW satW prevW =
        some (max (prevW.get ⟨i, h⟩).1 1)) :=
  ⟨⟨by decide, by decide, by decide, by decide, by decide⟩,
    (claim_C4 incW satW prevW (Term.Positive {0}) (by decide) (by decide)
        (by decide) (by decide)).1 ⟨0, by decide, by decide⟩⟩

section Claim3

variable {V : Type} [DecidableEq V] [Fintype V]

/-- C3 (counterexample): when `⋂S` is empty — here `S = [Term::empty()]` —
`contradicted_by` and `satisfied_by` both hold, yet `relation_with` returns
Satisfied, so "returns Contradicted if and only if contradicted_by" and the
mutual exclusivity of the Satisfied and Contradicted cases are both false as
stated. -/
theorem claim_C3_counterexample :
    Term.relation_with (Term.Positive {0} : Term (Fin 1)) [Term.empty] ≠
        Relation.Contradicted ∧
    Term.contradicted_by (Term.Positive {0} : Term (Fin 1)) [Term.empty] =
        true ∧
    Term.satisfied_by (Term.Positive {0} : Term (Fin 1)) [Term.empty] = true ∧
    Term.relation_with (Term.Positive {0} : Term (Fin 1)) [Term.empty] =
        Relation.Satisfied := by
  decide

/-- C3 (amended): `relation_with` returns Satisfied iff `satisfied_by`;
it returns Contradicted iff `contradicted_by` holds and `satisfied_by` does
not; it returns Inconclusive iff neither holds; and `satisfied_by` and
`contradicted_by` can only hold jointly when `⋂S` is empty (in which case
Satisfied wins). -/
theorem claim_C3 (t : Term V) (S : List (Term V)) :
    (Term.relation_with t S = Relation.Satisfied ↔
      Term.satisfied_by t S = true) ∧
    (Term.relation_with t S = Relation.Contradicted ↔
      (Term.contradicted_by t S = true ∧ Term.satisfied_by t S = false)) ∧
    (Term.relation_with t S = Relation.Inconclusive ↔
      (Term.satisfied_by t S = false ∧ Term.contradicted_by t S = false)) ∧
    (Term.satisfied_by t S = true → Term.contradicted_by t S = true →
      Term.intersect_all S = Term.empty) := by
  have hcomm : t.intersection (Term.intersect_all S) =
      (Term.intersect_all S).intersection t :=
    Term.inter_comm t (Term.intersect_all S)
  have hsb : Term.satisfied_by t S = true ↔
      t.intersection (Term.intersect_all S) = Term.intersect_all S := by
    unfold Term.satisfied_by Term.subset_of
    simp only [decide_eq_true_eq]
    rw [hcomm]
    exact eq_comm
  have hcb : Term.contradicted_by t S = true ↔
      t.intersection (Term.intersect_all S) = Term.empty := by
    unfold Term.contradicted_by
    simp only [decide_eq_true_eq]
    rw [hcomm]
  have hrel : Term.relation_with t S =
      (if t.intersection (Term.intersect_all S) = Term.intersect_all S then
        Relation.Satisfied
      else if t.intersection (Term.intersect_all S) = Term.empty then
        Relation.Contradicted
      else Relation.Inconclusive) := rfl
  by_cases h1 : t.intersection (Term.intersect_all S) = Term.intersect_all S
  · rw [hrel, if_pos h1]
    have hst : Term.satisfied_by t S = true := hsb.mpr h1
    refine ⟨⟨fun _ => hst, fun _ => rfl⟩, ?_, ?_, ?_⟩
    · constructor
      · intro h
        exact absurd h (by decide)
      · rintro ⟨_, hsf⟩
        rw [hst] at hsf
        cases hsf
    · constructor
      · intro h
        exact absurd h (by decide)
      · rintro ⟨hsf, _⟩
        rw [hst] at hsf
        cases hsf
    · intro _ hct
      rw [← h1]
      exact hcb.mp hct
  · have hsf : Term.satisfied_by t S = false := by
      cases hs : Term.satisfied_by t S
      · rfl
      · exact absurd (hsb.mp hs) h1
    by_cases h2 : t.intersection (Term.intersect_all S) = Term.empty
    · rw [hrel, if_neg h1, if_pos h2]
      refine ⟨?_, ?_, ?_, ?_⟩
      · constructor
        · intro h
          exact absurd h (by decide)
        · intro hs
          rw [hsf] at hs
          cases hs
      · exact ⟨fun _ => ⟨hcb.mpr h2, hsf⟩, fun _ => rfl⟩
      · constructor
        · intro h
          exact absurd h (by decide)
        · rintro ⟨_, hcf⟩
          have := hcb.mpr h2
          rw [hcf] at this
          cases this
      · intro hst _
        rw [hsf] at hst
        cases hst
    · rw [hrel, if_neg h1, if_neg h2]
      have hcf : Term.contradicted_by t S = false := by
        cases hc : Term.contradicted_by t S
        · rfl
        · exact absurd (hcb.mp hc) h2
      refine ⟨?_, ?_, ?_, ?_⟩
      · constructor
        · intro h
          exact absurd h (by decide)
        · intro hs
          rw [hsf] at hs
          cases hs
      · constructor
        · intro h
          exact absurd h (by decide)
        · rintro ⟨hc, _⟩
          rw [hcf] at hc
          cases hc
      · exact ⟨fun _ => ⟨hsf, hcf⟩, fun _ => rfl⟩
      · intro hst _
        rw [hsf] at hst
        cases hst

end Claim3

/-- Witness evaluating `claim_C3` on a concrete term and set of terms,
discharging the hypotheses of its joint-satisfaction component. -/
theorem claim_C3_witness :
    (Term.satisfied_by (Term.Positive {0} : Term (Fin 1)) [Term.empty] = true ∧
      Term.contradicted_by (Term.Positive {0} : Term (Fin 1)) [Term.empty] =
        true) ∧
    Term.intersect_all [(Term.empty : Term (Fin 1))] = Term.empty :=
  ⟨⟨by decide, by decide⟩,
    (claim_C3 (Term.Positive {0}) [Term.empty]).2.2.2 (by decide) (by decide)⟩

/-- C8: De Morgan for terms — `(a ∩ b).negate() = a.negate() ∪ b.negate()`,
where the union is `¬(¬a ∩ ¬b)` and `negate` swaps the Positive/Negative tag
keeping the range. -/
theorem claim_C8 {V : Type} [DecidableEq V] [Fintype V] (a b : Term V) :
    (a.intersection b).negate = a.negate.union b.negate := by
  unfold Term.union
  rw [Term.negate_negate, Term.negate_negate]

/-- C6: `add_version` first adds the decision (appending it to the history at
level `decision_level + 1`); if the resulting partial solution satisfies any
of the new incompatibilities, it removes that decision again without adding a
compensating derivation, leaving the history and the `decision_level` exactly
as they were before the call; otherwise the decision is kept. -/
theorem claim_C6 {P V : Type} [DecidableEq P] [DecidableEq V] [Fintype V]
    (ps : PartialSolution P V) (p : P) (v : V)
    (incs : List (Incompatibility P V)) :
    (ps.add_decision p v).history =
      ps.history ++ [(ps.decision_level + 1, Assignment.decision p v)] ∧
    (ps.add_version p v incs).history =
      (if (ps.add_decision p v).satisfies_any_of incs then ps.history
        else (ps.add_decision p v).history) ∧
    (ps.add_version p v incs).decision_level =
      (if (ps.add_decision p v).satisfies_any_of incs then ps.decision_level
        else ps.decision_level + 1) := by
  refine ⟨rfl, ?_, ?_⟩
  · unfold PartialSolution.add_version
    by_cases hc : (ps.add_decision p v).satisfies_any_of incs = true
    · rw [if_pos hc, if_pos hc]
      show ((ps.add_decision p v).remove_last_decision).history = ps.history
      unfold PartialSolution.remove_last_decision
      show (ps.history ++
        [(ps.decision_level + 1, Assignment.decision p v)]).dropLast =
        ps.history
      simp
    · rw [if_neg hc, if_neg hc]
  · unfold PartialSolution.add_version
    by_cases hc : (ps.add_decision p v).satisfies_any_of incs = true
    · rw [if_pos hc, if_pos hc]
      show ((ps.add_decision p v).remove_last_decision).decision_level =
        ps.decision_level
      unfold PartialSolution.remove_last_decision
      show ps.decision_level + 1 - 1 = ps.decision_level
      omega
    · rw [if_neg hc, if_neg hc]
      rfl

section HistoryLemmas

variable {P V A : Type} [DecidableEq P] [DecidableEq V] [Fintype V]

theorem rposition_none_iff (l : List A) (p : A → Bool) :
    rposition l p = none ↔ ∀ x ∈ l, p x = false := by
  induction l with
  | nil => simp [rposition]
  | cons a rest ih =>
    simp only [rposition]
    rcases hr : rposition rest p with _ | i
    · rw [hr] at ih
      by_cases hp : p a = true
      · rw [if_pos hp]
        simp [hp]
      · rw [if_neg hp]
        simp only [Bool.not_eq_true] at hp
        constructor
        · intro _ x hx
          rcases List.mem_cons.mp hx with h | h
          · rw [h]
            exact hp
          · exact ih.mp rfl x h
        · intro _
          rfl
    · constructor
      · intro h
        cases h
      · intro h
        have := (ih.mpr fun x hx => h x (List.mem_cons_of_mem a hx))
        rw [hr] at this
        cases this

theorem rposition_some_spec (l : List A) (p : A → Bool) (i : ℕ) :
    rposition l p = some i →
      ∃ h : i < l.length, p (l.get ⟨i, h⟩) = true ∧
        ∀ j, ∀ hj : j < l.length, i < j → p (l.get ⟨j, hj⟩) = false := by
  induction l generalizing i with
  | nil => intro h; cases h
  | cons a rest ih =>
    intro h
    simp only [rposition] at h
    rcases hr : rposition rest p with _ | i2
    · rw [hr] at h
      by_cases hp : p a = true
      · rw [if_pos hp] at h
        have hi : i = 0 := (Option.some.inj h).symm
        subst hi
        refine ⟨by simp, hp, ?_⟩
        intro j hj hij2
        rcases j with _ | j2
        · cases hij2
        · have hj2 : j2 < rest.length := by simpa using hj
          exact (rposition_none_iff rest p).mp hr _ (List.get_mem rest j2 hj2)
      · rw [if_neg hp] at h
        cases h
    · rw [hr] at h
      have hi : i = i2 + 1 := (Option.some.inj h).symm
      subst hi
      obtain ⟨h2, hp2, hafter⟩ := ih i2 hr
      refine ⟨Nat.succ_lt_succ h2, hp2, ?_⟩
      intro j hj hij
      rcases j with _ | j2
      · cases hij
      · have hj2 : j2 < rest.length := by simpa using hj
        exact hafter j2 hj2 (Nat.lt_of_succ_lt_succ hij)

theorem countP_take_le (l : List A) (p : A → Bool) (n : ℕ) :
    (l.take n).countP p ≤ l.countP p := by
  conv_rhs => rw [← List.take_append_drop n l]
  rw [List.countP_append]
  exact Nat.le_add_right _ _

theorem countP_take_mono (l : List A) (p : A → Bool) (m n : ℕ) (h : m ≤ n) :
    (l.take m).countP p ≤ (l.take n).countP p := by
  have : l.take m = (l.take n).take m := by
    rw [List.take_take, Nat.min_eq_left h]
  rw [this]
  exact countP_take_le (l.take n) p m

theorem exists_last_decision (l : List (ℕ × Assignment P V))
    (h : 1 ≤ countDecisions l) :
    ∃ j, ∃ hj : j < l.length, (l.get ⟨j, hj⟩).2.isDecision = true ∧
      countDecisions (l.take (j + 1)) = countDecisions l := by
  induction l using List.reverseRecOn with
  | nil => simp [countDecisions] at h
  | append_singleton rest la ih =>
    by_cases hd : la.2.isDecision = true
    · refine ⟨rest.length, by simp, ?_, ?_⟩
      · have : (rest ++ [la]).get ⟨rest.length, by simp⟩ = la := by
          simp [List.get_append_right]
        rw [this]
        exact hd
      · have : (rest ++ [la]).take (rest.length + 1) = rest ++ [la] := by
          rw [List.take_of_length_le]
          simp
        rw [this]
    · have hc : countDecisions (rest ++ [la]) = countDecisions rest := by
        unfold countDecisions
        rw [List.countP_append]
        simp [List.countP_cons, hd]
      rw [hc] at h
      obtain ⟨j, hj, hdec, hcnt⟩ := ih h
      refine ⟨j, by simp; omega, ?_, ?_⟩
      · rw [List.get_append j hj]
        exact hdec
      · have ht : (rest ++ [la]).take (j + 1) = rest.take (j + 1) := by
          rw [List.take_append_eq_append_take]
          have : j + 1 - rest.length = 0 := by omega
          rw [this]
          simp
        rw [ht, hcnt, hc]

theorem take_eq_filter (l : List A) (q : A → Bool) (n : ℕ)
    (h1 : ∀ x ∈ l.take n, q x = true) (h2 : ∀ x ∈ l.drop n, q x = false) :
    l.take n = l.filter q := by
  conv_rhs => rw [← List.take_append_drop n l]
  rw [List.filter_append]
  rw [List.filter_eq_self.mpr h1]
  have : (l.drop n).filter q = [] := by
    rw [List.filter_eq_nil]
    intro a ha
    rw [h2 a ha]
    simp
  rw [this, List.append_nil]

end HistoryLemmas

section ReplayLemmas

variable {P V : Type} [DecidableEq P] [DecidableEq V] [Fintype V]

theorem add_assignment_level (ps : PartialSolution P V) (a : Assignment P V) :
    (ps.add_assignment a).decision_level =
      if a.isDecision then ps.decision_level + 1 else ps.decision_level := by
  cases a <;> rfl

theorem add_assignment_history (ps : PartialSolution P V) (a : Assignment P V) :
    (ps.add_assignment a).history =
      ps.history ++
        [(if a.isDecision then ps.decision_level + 1 else ps.decision_level,
          a)] := by
  cases a <;> rfl

theorem foldl_add_assignment (as : List (Assignment P V)) :
    ∀ ps : PartialSolution P V,
      (as.foldl PartialSolution.add_assignment ps).history =
        ps.history ++ relabel ps.decision_level as ∧
      (as.foldl PartialSolution.add_assignment ps).decision_level =
        ps.decision_level + countDecisionsA as := by
  induction as with
  | nil =>
    intro ps
    simp [relabel, countDecisionsA]
  | cons a rest ih =>
    intro ps
    simp only [List.foldl_cons]
    obtain ⟨ihh, ihd⟩ := ih (ps.add_assignment a)
    constructor
    · rw [ihh, add_assignment_history ps a, add_assignment_level ps a,
        List.append_assoc]
      simp only [relabel, List.singleton_append]
    · rw [ihd, add_assignment_level]
      unfold countDecisionsA
      rw [List.countP_cons]
      by_cases hd : a.isDecision = true <;> simp [hd] <;> omega

theorem from_assignments_history (as : List (Assignment P V)) :
    (PartialSolution.from_assignments as).history = relabel 0 as := by
  have h := (foldl_add_assignment as PartialSolution.empty).1
  simpa [PartialSolution.from_assignments, PartialSolution.empty] using h

theorem from_assignments_level (as : List (Assignment P V)) :
    (PartialSolution.from_assignments as).decision_level = countDecisionsA as := by
  have h := (foldl_add_assignment as PartialSolution.empty).2
  simpa [PartialSolution.from_assignments, PartialSolution.empty] using h

theorem relabel_countD (as : List (Assignment P V)) :
    ∀ d, countDecisions (relabel d as) = countDecisionsA as := by
  induction as with
  | nil =>
    intro d
    rfl
  | cons a rest ih =>
    intro d
    simp only [relabel]
    unfold countDecisions countDecisionsA at *
    rw [List.countP_cons, List.countP_cons, ih]

theorem relabel_get (as : List (Assignment P V)) :
    ∀ d i, ∀ h : i < (relabel d as).length,
      ((relabel d as).get ⟨i, h⟩).1 =
        d + countDecisions ((relabel d as).take (i + 1)) := by
  induction as with
  | nil =>
    intro d i h
    simp [relabel] at h
  | cons a rest ih =>
    intro d i h
    simp only [relabel]
    rcases i with _ | i2
    · simp only [List.get]
      unfold countDecisions
      rw [List.take_succ_cons, List.take_zero]
      rw [List.countP_cons]
      simp only [List.countP_nil]
      by_cases hd : a.isDecision = true <;> simp [hd]
    · simp only [List.get]
      have h2 : i2 < (relabel (if a.isDecision then d + 1 else d) rest).length := by
        simp only [relabel] at h
        simpa using Nat.lt_of_succ_lt_succ h
      rw [ih (if a.isDecision then d + 1 else d) i2 h2]
      rw [List.take_succ_cons]
      unfold countDecisions
      rw [List.countP_cons]
      by_cases hd : a.isDecision = true <;> simp [hd] <;> omega

theorem relabel_eq_self (l : List (ℕ × Assignment P V)) :
    ∀ d, (∀ i, ∀ h : i < l.length,
        (l.get ⟨i, h⟩).1 = d + countDecisions (l.take (i + 1))) →
      relabel d (l.map Prod.snd) = l := by
  induction l with
  | nil =>
    intro d _
    rfl
  | cons la rest ih =>
    intro d hlv
    simp only [List.map_cons, relabel]
    have h0 := hlv 0 (by simp)
    simp only [List.get, List.take_succ_cons, List.take_zero] at h0
    have hd2 : (if la.2.isDecision then d + 1 else d) = la.1 := by
      rw [h0]
      unfold countDecisions
      rw [List.countP_cons]
      simp only [List.countP_nil]
      by_cases hd : la.2.isDecision = true <;> simp [hd]
    rw [hd2]
    have hrest : relabel la.1 (rest.map Prod.snd) = rest := by
      apply ih
      intro i hi
      have hs := hlv (i + 1) (by simpa using Nat.succ_lt_succ hi)
      simp only [List.get, List.take_succ_cons] at hs
      rw [hs]
      unfold countDecisions
      rw [List.countP_cons]
      rw [← hd2]
      by_cases hd : la.2.isDecision = true
      · simp only [hd, if_true]
        omega
      · simp only [hd, if_false]
        simp
    rw [hrest]

theorem histLevels_from_assignments (as : List (Assignment P V)) :
    HistLevels (PartialSolution.from_assignments as) := by
  constructor
  · rw [from_assignments_level, from_assignments_history, relabel_countD]
  · intro i h
    have heq := from_assignments_history as
    have h2 : i < (relabel 0 as).length := by
      rw [← heq]
      exact h
    have hget : (PartialSolution.from_assignments as).history.get ⟨i, h⟩ =
        (relabel 0 as).get ⟨i, h2⟩ :=
      List.get_of_eq heq ⟨i, h⟩
    rw [hget, relabel_get as 0 i h2, heq]
    simp

end ReplayLemmas

section InvariantLemmas

variable {P V : Type} [DecidableEq P] [DecidableEq V] [Fintype V]

theorem histLevels_of_eq (ps ps2 : PartialSolution P V)
    (hd : ps2.decision_level = ps.decision_level)
    (hh : ps2.history = ps.history) (h : HistLevels ps) : HistLevels ps2 := by
  unfold HistLevels at h ⊢
  rw [hd]
  refine ⟨by rw [hh]; exact h.1, ?_⟩
  intro i hi
  have hi2 : i < ps.history.length := by
    rw [← hh]
    exact hi
  have hget : ps2.history.get ⟨i, hi⟩ = ps.history.get ⟨i, hi2⟩ :=
    List.get_of_eq hh ⟨i, hi⟩
  rw [hget, hh]
  exact h.2 i hi2

theorem histLevels_add_assignment (ps : PartialSolution P V)
    (a : Assignment P V) (h : HistLevels ps) :
    HistLevels (ps.add_assignment a) := by
  have hδ : countDecisions
      [((if a.isDecision then ps.decision_level + 1 else ps.decision_level),
        a)] = if a.isDecision then 1 else 0 := by
    unfold countDecisions
    rw [List.countP_cons]
    simp only [List.countP_nil]
    by_cases hd : a.isDecision = true <;> simp [hd]
  constructor
  · rw [add_assignment_level, add_assignment_history]
    unfold countDecisions
    rw [List.countP_append]
    have h1 := h.1
    unfold countDecisions at h1 hδ
    rw [← h1, hδ]
    by_cases hd : a.isDecision = true <;> simp [hd]
  · intro i hi0
    have heq := add_assignment_history ps a
    have hi : i < (ps.history ++
        [((if a.isDecision then ps.decision_level + 1 else ps.decision_level),
          a)]).length := by
      rw [← heq]
      exact hi0
    have hget0 : (ps.add_assignment a).history.get ⟨i, hi0⟩ =
        (ps.history ++
          [((if a.isDecision then ps.decision_level + 1 else ps.decision_level),
            a)]).get ⟨i, hi⟩ :=
      List.get_of_eq heq ⟨i, hi0⟩
    rw [hget0, heq]
    have hlen : i < ps.history.length + 1 := by simpa using hi
    by_cases hcase : i < ps.history.length
    · have hget : (ps.history ++
          [((if a.isDecision then ps.decision_level + 1 else ps.decision_level),
            a)]).get ⟨i, hi⟩ = ps.history.get ⟨i, hcase⟩ :=
        List.get_append i hcase
      rw [hget]
      have htake : (ps.history ++
          [((if a.isDecision then ps.decision_level + 1 else ps.decision_level),
            a)]).take (i + 1) = ps.history.take (i + 1) := by
        rw [List.take_append_eq_append_take]
        have hz : i + 1 - ps.history.length = 0 := by omega
        rw [hz]
        simp
      rw [htake]
      exact h.2 i hcase
    · have hieq : i = ps.history.length := by omega
      subst hieq
      have hget : (ps.history ++
          [((if a.isDecision then ps.decision_level + 1 else ps.decision_level),
            a)]).get ⟨ps.history.length, hi⟩ =
          ((if a.isDecision then ps.decision_level + 1 else ps.decision_level),
            a) := by
        simp
      rw [hget]
      have htake : (ps.history ++
          [((if a.isDecision then ps.decision_level + 1 else ps.decision_level),
            a)]).take (ps.history.length + 1) = ps.history ++
          [((if a.isDecision then ps.decision_level + 1 else ps.decision_level),
            a)] := by
        rw [List.take_of_length_le]
        simp
      rw [htake]
      unfold countDecisions
      rw [List.countP_append]
      have h1 := h.1
      unfold countDecisions at h1 hδ
      rw [← h1, hδ]
      by_cases hd : a.isDecision = true <;> simp [hd]

theorem hist_inv_reachable (ps : PartialSolution P V) (h : Reachable ps) :
    HistLevels ps := by
  induction h with
  | empty =>
    exact ⟨rfl, fun i hi => absurd hi (by simp [PartialSolution.empty])⟩
  | add_decision ps p v _ ih => exact histLevels_add_assignment ps _ ih
  | add_derivation ps p t c _ ih => exact histLevels_add_assignment ps _ ih
  | add_version ps p v incs _ ih =>
    unfold PartialSolution.add_version
    by_cases hc : (ps.add_decision p v).satisfies_any_of incs = true
    · rw [if_pos hc]
      apply histLevels_of_eq ps
      · show ps.decision_level + 1 - 1 = ps.decision_level
        omega
      · show ((ps.add_decision p v).history).dropLast = ps.history
        show (ps.history ++
          [(ps.decision_level + 1, Assignment.decision p v)]).dropLast =
          ps.history
        simp
      · exact ih
    · rw [if_neg hc]
      exact histLevels_add_assignment ps _ ih
  | backtrack ps lvl _ _ =>
    exact histLevels_from_assignments _

end InvariantLemmas

section Claim7

variable {P V : Type} [DecidableEq P] [DecidableEq V] [Fintype V]

/-- C7: in every partial solution reachable from `empty()` by `add_decision`,
`add_derivation`, `add_version` and `backtrack`, the levels stored in the
history are monotone non-decreasing from oldest to newest; every derivation
at a level of at least 1 appears after that level's decision; each
`add_decision` increments `decision_level` by exactly one; and each
`add_derivation` leaves it unchanged. -/
theorem claim_C7 (ps : PartialSolution P V) (hreach : Reachable ps) :
    (∀ i j, ∀ hi : i < ps.history.length, ∀ hj : j < ps.history.length,
      i ≤ j → (ps.history.get ⟨i, hi⟩).1 ≤ (ps.history.get ⟨j, hj⟩).1) ∧
    (∀ i, ∀ hi : i < ps.history.length,
      (ps.history.get ⟨i, hi⟩).2.isDecision = false →
      1 ≤ (ps.history.get ⟨i, hi⟩).1 →
      ∃ j, ∃ hj : j < ps.history.length, j < i ∧
        (ps.history.get ⟨j, hj⟩).2.isDecision = true ∧
        (ps.history.get ⟨j, hj⟩).1 = (ps.history.get ⟨i, hi⟩).1) ∧
    (∀ p v, (ps.add_decision p v).decision_level = ps.decision_level + 1) ∧
    (∀ p t c, (ps.add_derivation p t c).decision_level = ps.decision_level) := by
  have hinv := hist_inv_reachable ps hreach
  refine ⟨?_, ?_, fun p v => rfl, fun p t c => rfl⟩
  · intro i j hi hj hij
    rw [hinv.2 i hi, hinv.2 j hj]
    exact countP_take_mono ps.history _ (i + 1) (j + 1) (by omega)
  · intro i hi hder hpos
    have hlev := hinv.2 i hi
    have htake : ps.history.take (i + 1) =
        ps.history.take i ++ [ps.history.get ⟨i, hi⟩] := by
      rw [List.take_succ]
      simp [List.getElem?_eq_getElem hi, List.get_eq_getElem]
    have hder2 : ps.history[i].2.isDecision = false := hder
    have hcnt : countDecisions (ps.history.take (i + 1)) =
        countDecisions (ps.history.take i) := by
      rw [htake]
      unfold countDecisions
      rw [List.countP_append, List.countP_cons]
      simp [hder2]
    have hge : 1 ≤ countDecisions (ps.history.take i) := by
      rw [← hcnt, ← hlev]
      exact hpos
    obtain ⟨j, hj, hdec, hcnt2⟩ := exists_last_decision (ps.history.take i) hge
    have hjlt : j < i := by
      have := hj
      rw [List.length_take] at this
      omega
    have hjlen2 : j < ps.history.length := by omega
    have hgetj : (ps.history.take i).get ⟨j, hj⟩ =
        ps.history.get ⟨j, hjlen2⟩ := by
      simp [List.get_eq_getElem, List.getElem_take]
    refine ⟨j, hjlen2, hjlt, ?_, ?_⟩
    · rw [← hgetj]
      exact hdec
    · rw [hinv.2 j hjlen2]
      have h1 : ps.history.take (j + 1) = (ps.history.take i).take (j + 1) := by
        rw [List.take_take, Nat.min_eq_left (by omega)]
      rw [h1, hcnt2, ← hcnt, ← hlev]

end Claim7

/-- Witness evaluating `claim_C7` on a concrete reachable partial solution,
discharging the reachability hypothesis with explicit constructor steps. -/
theorem claim_C7_witness :
    Reachable ps2W ∧
    ((∀ i j, ∀ hi : i < ps2W.history.length, ∀ hj : j < ps2W.history.length,
      i ≤ j → (ps2W.history.get ⟨i, hi⟩).1 ≤ (ps2W.history.get ⟨j, hj⟩).1) ∧
    (∀ i, ∀ hi : i < ps2W.history.length,
      (ps2W.history.get ⟨i, hi⟩).2.isDecision = false →
      1 ≤ (ps2W.history.get ⟨i, hi⟩).1 →
      ∃ j, ∃ hj : j < ps2W.history.length, j < i ∧
        (ps2W.history.get ⟨j, hj⟩).2.isDecision = true ∧
        (ps2W.history.get ⟨j, hj⟩).1 = (ps2W.history.get ⟨i, hi⟩).1) ∧
    (∀ p v, (ps2W.add_decision p v).decision_level = ps2W.decision_level + 1) ∧
    (∀ p t c, (ps2W.add_derivation p t c).decision_level =
      ps2W.decision_level)) := by
  have hr : Reachable ps2W :=
    Reachable.add_decision _ 1 0
      (Reachable.add_derivation _ 1 (Term.Positive {0}) incW
        (Reachable.add_decision _ 0 0 Reachable.empty))
  exact ⟨hr, claim_C7 ps2W hr⟩

section Claim2

variable {P V : Type} [DecidableEq P] [DecidableEq V] [Fintype V]

/-- C2 (counterexample): backtracking to a level L that appears in no history
entry keeps the whole history — here a reachable partial solution whose only
entry has level 1 is backtracked to level 0, and the level-1 entry survives —
so backtrack does not truncate to the last entry whose level is ≤ L as
claimed. -/
theorem claim_C2_counterexample :
    (psW.backtrack 0).history = [(1, Assignment.decision 0 0)] ∧
    ¬((psW.backtrack 0).history.all fun la => decide (la.1 ≤ 0)) = true := by
  decide

/-- C2 (amended): for a reachable partial solution and a target level L that
appears in the history, `backtrack(L)` truncates the history to the last
entry whose level equals L — which, the levels being monotone, removes
exactly the entries with level > L — and rebuilds the memory and the
`decision_level` (which becomes L) by replaying the truncated history from an
empty partial solution.  When no entry has level L the code instead keeps the
whole history. -/
theorem claim_C2 (ps : PartialSolution P V) (L : ℕ)
    (hreach : Reachable ps)
    (hex : ∃ la ∈ ps.history, la.1 = L) :
    (ps.backtrack L).history =
      ps.history.filter (fun la => decide (la.1 ≤ L)) ∧
    (ps.backtrack L).decision_level = L ∧
    ps.backtrack L =
      PartialSolution.from_assignments
        ((ps.history.filter (fun la => decide (la.1 ≤ L))).map Prod.snd) := by
  have hinv := hist_inv_reachable ps hreach
  obtain ⟨la0, hla0mem, hla0⟩ := hex
  obtain ⟨pos, hpos⟩ :
      ∃ pos, rposition ps.history (fun la => la.1 == L) = some pos := by
    rcases hr : rposition ps.history (fun la => la.1 == L) with _ | pos
    · exfalso
      have := (rposition_none_iff _ _).mp hr la0 hla0mem
      rw [hla0] at this
      simp at this
    · exact ⟨pos, rfl⟩
  obtain ⟨hposlt, hpeq, hafter⟩ := rposition_some_spec _ _ pos hpos
  have hpeq2 : (ps.history.get ⟨pos, hposlt⟩).1 = L := by simpa using hpeq
  have hmono : ∀ i j, ∀ hi : i < ps.history.length,
      ∀ hj : j < ps.history.length, i ≤ j →
      (ps.history.get ⟨i, hi⟩).1 ≤ (ps.history.get ⟨j, hj⟩).1 := by
    intro i j hi hj hij
    rw [hinv.2 i hi, hinv.2 j hj]
    exact countP_take_mono ps.history _ (i + 1) (j + 1) (by omega)
  have hto : ps.history.take (pos + 1) =
      ps.history.filter (fun la => decide (la.1 ≤ L)) := by
    apply take_eq_filter
    · intro x hx
      obtain ⟨⟨j, hj⟩, hget⟩ := List.mem_iff_get.mp hx
      have hjp : j < pos + 1 := by
        have := hj
        rw [List.length_take] at this
        omega
      have hj2 : j < ps.history.length := by
        have := hj
        rw [List.length_take] at this
        omega
      have hgj : (ps.history.take (pos + 1)).get ⟨j, hj⟩ =
          ps.history.get ⟨j, hj2⟩ := by
        simp [List.get_eq_getElem, List.getElem_take]
      have hle : (ps.history.get ⟨j, hj2⟩).1 ≤ L := by
        rw [← hpeq2]
        exact hmono j pos hj2 hposlt (by omega)
      rw [← hget, hgj]
      simpa using hle
    · intro x hx
      obtain ⟨⟨j, hj⟩, hget⟩ := List.mem_iff_get.mp hx
      have hj2 : pos + 1 + j < ps.history.length := by
        have := hj
        rw [List.length_drop] at this
        omega
      have hgj : (ps.history.drop (pos + 1)).get ⟨j, hj⟩ =
          ps.history.get ⟨pos + 1 + j, hj2⟩ := by
        simp [List.get_eq_getElem, List.getElem_drop]
      have hge : L ≤ (ps.history.get ⟨pos + 1 + j, hj2⟩).1 := by
        rw [← hpeq2]
        exact hmono pos (pos + 1 + j) hposlt hj2 (by omega)
      have hne : (ps.history.get ⟨pos + 1 + j, hj2⟩).1 ≠ L := by
        have := hafter (pos + 1 + j) hj2 (by omega)
        simpa using this
      rw [← hget, hgj]
      simp only [decide_eq_false_iff_not]
      omega
  have hreplay : (PartialSolution.from_assignments
      ((ps.history.take (pos + 1)).map Prod.snd)).history =
      ps.history.take (pos + 1) := by
    rw [from_assignments_history]
    apply relabel_eq_self
    intro i hi
    have hi2 : i < ps.history.length := by
      have := hi
      rw [List.length_take] at this
      omega
    have hip : i + 1 ≤ pos + 1 := by
      have := hi
      rw [List.length_take] at this
      omega
    have hgt : (ps.history.take (pos + 1)).get ⟨i, hi⟩ =
        ps.history.get ⟨i, hi2⟩ := by
      simp [List.get_eq_getElem, List.getElem_take]
    have ht2 : (ps.history.take (pos + 1)).take (i + 1) =
        ps.history.take (i + 1) := by
      rw [List.take_take, Nat.min_eq_left hip]
    rw [hgt, ht2, hinv.2 i hi2]
    simp
  have hbt : ps.backtrack L = PartialSolution.from_assignments
      ((ps.history.take (pos + 1)).map Prod.snd) := by
    unfold PartialSolution.backtrack
    rw [hpos]
    rfl
  refine ⟨?_, ?_, ?_⟩
  · rw [hbt, hreplay, hto]
  · rw [hbt, from_assignments_level]
    have hcnt : countDecisionsA ((ps.history.take (pos + 1)).map Prod.snd) =
        countDecisions (ps.history.take (pos + 1)) := by
      unfold countDecisionsA countDecisions
      rw [List.countP_map]
      rfl
    rw [hcnt, ← hinv.2 pos hposlt, hpeq2]
  · rw [hbt, hto]

end Claim2

/-- Witness evaluating `claim_C2` on a concrete reachable partial solution
with a level-1 entry, discharging the reachability and level-presence
hypotheses. -/
theorem claim_C2_witness :
    Reachable ps2W ∧ (∃ la ∈ ps2W.history, la.1 = 1) ∧
    ((ps2W.backtrack 1).history =
      ps2W.history.filter (fun la => decide (la.1 ≤ 1)) ∧
    (ps2W.backtrack 1).decision_level = 1 ∧
    ps2W.backtrack 1 =
      PartialSolution.from_assignments
        ((ps2W.history.filter (fun la => decide (la.1 ≤ 1))).map Prod.snd)) := by
  have hr : Reachable ps2W :=
    Reachable.add_decision _ 1 0
      (Reachable.add_derivation _ 1 (Term.Positive {0}) incW
        (Reachable.add_decision _ 0 0 Reachable.empty))
  exact ⟨hr, by decide, claim_C2 ps2W 1 hr (by decide)⟩

section Claim5

variable {P V E : Type} [DecidableEq P] [DecidableEq V] [Fintype V]

theorem exceptIsOk_exists {A : Type} (x : Except E A)
    (h : exceptIsOk x = true) : ∃ a, x = .ok a := by
  rcases x with e | a
  · cases h
  · exact ⟨a, rfl⟩

theorem pickLoop_error (provider : P → Except E (List V)) :
    ∀ (l : List (P × Term V)) (out : Option (P × Term V)) (mk i : ℕ)
      (hi : i < l.length) (e : E),
      (∀ j, ∀ hj : j < l.length, j < i →
        ∃ vs, provider (l.get ⟨j, hj⟩).1 = .ok vs) →
      provider (l.get ⟨i, hi⟩).1 = .error e →
      pickLoop provider l out mk =
        .error (.ErrorRetrievingVersions (l.get ⟨i, hi⟩).1 e) := by
  intro l
  induction l with
  | nil =>
    intro _ _ i hi
    simp at hi
  | cons pt rest ih =>
    intro out mk i hi e hok herr
    rcases i with _ | i2
    · simp only [pickLoop]
      rw [show provider pt.1 = .error e from herr]
      rfl
    · obtain ⟨vs, hvs⟩ := hok 0 (by simp) (by omega)
      simp only [pickLoop]
      rw [show provider pt.1 = .ok vs from hvs]
      dsimp only
      have hi2 : i2 < rest.length := by simpa using hi
      have herr2 : provider (rest.get ⟨i2, hi2⟩).1 = .error e := herr
      have hok2 : ∀ j, ∀ hj : j < rest.length, j < i2 →
          ∃ vs2, provider (rest.get ⟨j, hj⟩).1 = .ok vs2 := by
        intro j hj hji
        exact hok (j + 1) (by simpa using Nat.succ_lt_succ hj) (by omega)
      by_cases hkey : ((vs.filter fun v => pt.2.contains v).length < mk)
      · rw [if_pos hkey]
        exact ih _ _ i2 hi2 e hok2 herr2
      · rw [if_neg hkey]
        exact ih _ _ i2 hi2 e hok2 herr2

theorem pickLoop_ok_min (provider : P → Except E (List V)) :
    ∀ (l : List (P × Term V)) (out : Option (P × Term V)) (mk : ℕ),
      (∀ pt ∈ l, ∃ vs, provider pt.1 = .ok vs) →
      ∃ r, pickLoop provider l out mk = .ok r ∧
        ((r = out ∧ ∀ pt ∈ l, mk ≤ keyOf provider pt) ∨
         (∃ i, ∃ hi : i < l.length, r = some (l.get ⟨i, hi⟩) ∧
           keyOf provider (l.get ⟨i, hi⟩) < mk ∧
           (∀ j, ∀ hj : j < l.length, j < i →
             mk ≤ keyOf provider (l.get ⟨j, hj⟩) ∨
             keyOf provider (l.get ⟨i, hi⟩) < keyOf provider (l.get ⟨j, hj⟩)) ∧
           (∀ j, ∀ hj : j < l.length, i < j →
             keyOf provider (l.get ⟨i, hi⟩) ≤ keyOf provider (l.get ⟨j, hj⟩)))) := by
  intro l
  induction l with
  | nil =>
    intro out mk _
    exact ⟨out, rfl, Or.inl ⟨rfl, by simp⟩⟩
  | cons pt rest ih =>
    intro out mk hok
    obtain ⟨vs, hvs⟩ := hok pt (List.mem_cons_self _ _)
    have hkeyeq : keyOf provider pt = (vs.filter fun v => pt.2.contains v).length := by
      unfold keyOf
      rw [hvs]
    have hokr : ∀ pt2 ∈ rest, ∃ vs2, provider pt2.1 = .ok vs2 :=
      fun pt2 h2 => hok pt2 (List.mem_cons_of_mem _ h2)
    simp only [pickLoop]
    rw [show provider pt.1 = .ok vs from hvs]
    dsimp only
    by_cases hlt : ((vs.filter fun v => pt.2.contains v).length < mk)
    · rw [if_pos hlt]
      obtain ⟨r, hr, hcase⟩ :=
        ih (some pt) ((vs.filter fun v => pt.2.contains v).length) hokr
      refine ⟨r, hr, Or.inr ?_⟩
      rcases hcase with ⟨hrout, hge⟩ | ⟨i2, hi2, hr2, hlt2, hprev2, hafter2⟩
      · refine ⟨0, by simp, by rw [hrout]; rfl, ?_, ?_, ?_⟩
        · rw [show keyOf provider ((pt :: rest).get ⟨0, by simp⟩) =
            keyOf provider pt from rfl, hkeyeq]
          exact hlt
        · intro j hj hj0
          exact absurd hj0 (Nat.not_lt_zero j)
        · intro j hj h0j
          rcases j with _ | j2
          · exact absurd h0j (by omega)
          · have hj2 : j2 < rest.length := by simpa using hj
            have := hge (rest.get ⟨j2, hj2⟩) (List.get_mem rest j2 hj2)
            rw [show keyOf provider ((pt :: rest).get ⟨0, by simp⟩) =
              keyOf provider pt from rfl, hkeyeq]
            exact this
      · have hi2c : i2 + 1 < (pt :: rest).length := by
          simpa using Nat.succ_lt_succ hi2
        refine ⟨i2 + 1, hi2c, hr2, ?_, ?_, ?_⟩
        · exact lt_trans hlt2 hlt
        · intro j hj hji
          rcases j with _ | j2
          · right
            rw [show keyOf provider ((pt :: rest).get ⟨0, hj⟩) =
              keyOf provider pt from rfl, hkeyeq]
            exact hlt2
          · have hj2 : j2 < rest.length := by simpa using hj
            rcases hprev2 j2 hj2 (by omega) with hmk | hwin
            · right
              exact lt_of_lt_of_le hlt2 hmk
            · right
              exact hwin
        · intro j hj hij
          rcases j with _ | j2
          · exact absurd hij (by omega)
          · have hj2 : j2 < rest.length := by simpa using hj
            exact hafter2 j2 hj2 (by omega)
    · rw [if_neg hlt]
      obtain ⟨r, hr, hcase⟩ := ih out mk hokr
      refine ⟨r, hr, ?_⟩
      rcases hcase with ⟨hrout, hge⟩ | ⟨i2, hi2, hr2, hlt2, hprev2, hafter2⟩
      · refine Or.inl ⟨hrout, ?_⟩
        intro pt2 h2
        rcases List.mem_cons.mp h2 with h3 | h3
        · rw [h3, hkeyeq]
          omega
        · exact hge pt2 h3
      · have hi2c : i2 + 1 < (pt :: rest).length := by
          simpa using Nat.succ_lt_succ hi2
        refine Or.inr ⟨i2 + 1, hi2c, hr2, hlt2, ?_, ?_⟩
        · intro j hj hji
          rcases j with _ | j2
          · left
            rw [show keyOf provider ((pt :: rest).get ⟨0, hj⟩) =
              keyOf provider pt from rfl, hkeyeq]
            omega
          · have hj2 : j2 < rest.length := by simpa using hj
            exact hprev2 j2 hj2 (by omega)
        · intro j hj hij
          rcases j with _ | j2
          · exact absurd hij (by omega)
          · have hj2 : j2 < rest.length := by simpa using hj
            exact hafter2 j2 hj2 (by omega)

/-- C5: `pick_package` scans `memory.potential_packages()` and returns the
package (with its term) minimizing the count of versions from
`list_available_versions` that the term contains, ties broken in favor of the
first occurrence in iteration order; with no potential packages it returns
`Ok(None)`; and it returns `Err(ErrorRetrievingVersions{package, source})`
naming the first inspected package for which `list_available_versions`
fails. -/
theorem claim_C5 (ps : PartialSolution P V) (provider : P → Except E (List V)) :
    (ps.memory.potential_packages = [] →
      ps.pick_package provider = .ok none) ∧
    (ps.memory.potential_packages ≠ [] →
      (∀ pt ∈ ps.memory.potential_packages, exceptIsOk (provider pt.1) = true) →
      (∀ pt ∈ ps.memory.potential_packages, keyOf provider pt < USIZE_MAX) →
      ∃ i, ∃ hi : i < ps.memory.potential_packages.length,
        ps.pick_package provider =
          .ok (some (ps.memory.potential_packages.get ⟨i, hi⟩)) ∧
        (∀ j, ∀ hj : j < ps.memory.potential_packages.length,
          keyOf provider (ps.memory.potential_packages.get ⟨i, hi⟩) ≤
            keyOf provider (ps.memory.potential_packages.get ⟨j, hj⟩)) ∧
        (∀ j, ∀ hj : j < ps.memory.potential_packages.length, j < i →
          keyOf provider (ps.memory.potential_packages.get ⟨i, hi⟩) <
            keyOf provider (ps.memory.potential_packages.get ⟨j, hj⟩))) ∧
    (∀ i, ∀ hi : i < ps.memory.potential_packages.length, ∀ e,
      (∀ j, ∀ hj : j < ps.memory.potential_packages.length, j < i →
        exceptIsOk (provider (ps.memory.potential_packages.get ⟨j, hj⟩).1) =
          true) →
      provider (ps.memory.potential_packages.get ⟨i, hi⟩).1 = .error e →
      ps.pick_package provider =
        .error (.ErrorRetrievingVersions
          (ps.memory.potential_packages.get ⟨i, hi⟩).1 e)) := by
  refine ⟨?_, ?_, ?_⟩
  · intro hnil
    unfold PartialSolution.pick_package
    rw [hnil]
    rfl
  · intro hne hok hbound
    have hok2 : ∀ pt ∈ ps.memory.potential_packages,
        ∃ vs, provider pt.1 = .ok vs :=
      fun pt h2 => exceptIsOk_exists _ (hok pt h2)
    obtain ⟨r, hr, hcase⟩ :=
      pickLoop_ok_min provider ps.memory.potential_packages none USIZE_MAX hok2
    rcases hcase with ⟨_, hge⟩ | ⟨i, hi, hr2, _, hprev, hafter⟩
    · exfalso
      obtain ⟨pt0, hpt0⟩ := List.exists_mem_of_ne_nil _ hne
      exact absurd (hge pt0 hpt0) (by have := hbound pt0 hpt0; omega)
    · refine ⟨i, hi, ?_, ?_, ?_⟩
      · unfold PartialSolution.pick_package
        rw [hr, hr2]
      · intro j hj
        rcases Nat.lt_trichotomy j i with hlt | heq | hgt
        · rcases hprev j hj hlt with hmk | hwin
          · exfalso
            have := hbound (ps.memory.potential_packages.get ⟨j, hj⟩)
              (List.get_mem _ j hj)
            omega
          · exact le_of_lt hwin
        · subst heq
          exact le_refl _
        · exact hafter j hj hgt
      · intro j hj hlt
        rcases hprev j hj hlt with hmk | hwin
        · exfalso
          have := hbound (ps.memory.potential_packages.get ⟨j, hj⟩)
            (List.get_mem _ j hj)
          omega
        · exact hwin
  · intro i hi e hok herr
    have hok2 : ∀ j, ∀ hj : j < ps.memory.potential_packages.length, j < i →
        ∃ vs, provider (ps.memory.potential_packages.get ⟨j, hj⟩).1 = .ok vs :=
      fun j hj hji => exceptIsOk_exists _ (hok j hj hji)
    unfold PartialSolution.pick_package
    exact pickLoop_error provider _ none USIZE_MAX i hi e hok2 herr

end Claim5

/-- Witness evaluating `claim_C5` on a concrete partial solution and
provider: the potential-package list is nonempty and every hypothesis is
discharged on the concrete input. -/
theorem claim_C5_witness :
    (psPotW.memory.potential_packages ≠ [] ∧
      (∀ pt ∈ psPotW.memory.potential_packages,
        exceptIsOk (providerW pt.1) = true) ∧
      (∀ pt ∈ psPotW.memory.potential_packages,
        keyOf providerW pt < USIZE_MAX)) ∧
    (∃ i, ∃ hi : i < psPotW.memory.potential_packages.length,
      psPotW.pick_package providerW =
        .ok (some (psPotW.memory.potential_packages.get ⟨i, hi⟩)) ∧
      (∀ j, ∀ hj : j < psPotW.memory.potential_packages.length,
        keyOf providerW (psPotW.memory.potential_packages.get ⟨i, hi⟩) ≤
          keyOf providerW (psPotW.memory.potential_packages.get ⟨j, hj⟩)) ∧
      (∀ j, ∀ hj : j < psPotW.memory.potential_packages.length, j < i →
        keyOf providerW (psPotW.memory.potential_packages.get ⟨i, hi⟩) <
          keyOf providerW (psPotW.memory.potential_packages.get ⟨j, hj⟩))) :=
  ⟨⟨by decide, by decide, by decide⟩,
    (claim_C5 psPotW providerW).2.1 (by decide) (by decide) (by decide)⟩

section Claim10

variable {P V : Type} [DecidableEq P] [DecidableEq V] [Fintype V]

theorem fsAuxSpec_cons (inc : Incompatibility P V)
    (accum : List (P × (Bool × Term V))) (la : ℕ × Assignment P V)
    (rest : List (ℕ × Assignment P V)) :
    fsAuxSpec inc accum (la :: rest) =
      match inc.get la.2.package with
      | none => (fsAuxSpec inc accum rest).map fun ix => (ix.1 + 1, ix.2)
      | some incompat_term =>
        match mapGet accum la.2.package with
        | none => none
        | some (_, accum_term) =>
          if (accum_term.intersection la.2.as_term).subset_of incompat_term &&
              allSatisfied
                (mapSet accum la.2.package
                  ((accum_term.intersection la.2.as_term).subset_of incompat_term,
                    accum_term.intersection la.2.as_term)) then
            some (0, la)
          else
            (fsAuxSpec inc
                (mapSet accum la.2.package
                  ((accum_term.intersection la.2.as_term).subset_of incompat_term,
                    accum_term.intersection la.2.as_term))
                rest).map
              fun ix => (ix.1 + 1, ix.2) := rfl

theorem relacc_self (inc : Incompatibility P V) :
    ∀ accum : List (P × (Bool × Term V)),
      (∀ e ∈ accum, entryJustified inc e = true) → RelAcc inc accum accum := by
  intro accum
  induction accum with
  | nil =>
    intro _
    trivial
  | cons e rest ih =>
    intro hj
    refine ⟨rfl, rfl, fun _ => rfl, ?_, ih fun x hx => hj x (List.mem_cons_of_mem _ hx)⟩
    intro hb it hit
    have := hj e (List.mem_cons_self _ _)
    unfold entryJustified at this
    rw [hb, hit] at this
    exact this

theorem relacc_get (inc : Incompatibility P V) :
    ∀ a1 a2, RelAcc inc a1 a2 → ∀ p,
      (mapGet a1 p = none ∧ mapGet a2 p = none) ∨
      (∃ b tm1 tm2, mapGet a1 p = some (b, tm1) ∧ mapGet a2 p = some (b, tm2) ∧
        (b = false → tm1 = tm2) ∧
        (b = true → ∀ it, inc.get p = some it → tm2.subset_of it = true)) := by
  intro a1
  induction a1 with
  | nil =>
    intro a2 hr p
    cases a2 with
    | nil => exact Or.inl ⟨rfl, rfl⟩
    | cons e2 r2 => exact absurd hr (by simp [RelAcc])
  | cons e1 r1 ih =>
    intro a2 hr p
    cases a2 with
    | nil => exact absurd hr (by simp [RelAcc])
    | cons e2 r2 =>
      obtain ⟨hk, hb, hf, ht, hrest⟩ := hr
      by_cases hp : e1.1 = p
      · right
        refine ⟨e1.2.1, e1.2.2, e2.2.2, ?_, ?_, hf, ?_⟩
        · simp only [mapGet]
          rw [if_pos hp]
        · simp only [mapGet]
          rw [if_pos (by rw [← hk]; exact hp)]
          have : (e1.2.1, e2.2.2) = e2.2 := by
            rw [hb]
          rw [this]
        · intro hbt it hit
          exact ht hbt it (by rw [hp]; exact hit)
      · have hp2 : ¬(e2.1 = p) := by
          rw [← hk]
          exact hp
        have := ih r2 hrest p
        simp only [mapGet]
        rw [if_neg hp, if_neg hp2]
        exact this

theorem relacc_allSat (inc : Incompatibility P V) :
    ∀ a1 a2, RelAcc inc a1 a2 → allSatisfied a1 = allSatisfied a2 := by
  intro a1
  induction a1 with
  | nil =>
    intro a2 hr
    cases a2 with
    | nil => rfl
    | cons e2 r2 => exact absurd hr (by simp [RelAcc])
  | cons e1 r1 ih =>
    intro a2 hr
    cases a2 with
    | nil => exact absurd hr (by simp [RelAcc])
    | cons e2 r2 =>
      obtain ⟨_, hb, _, _, hrest⟩ := hr
      simp only [allSatisfied, List.all_cons]
      have h2 := ih r2 hrest
      simp only [allSatisfied] at h2
      rw [hb, h2]

theorem relacc_mapSet_both (inc : Incompatibility P V) :
    ∀ a1 a2, RelAcc inc a1 a2 → ∀ p b tnew,
      (b = true → ∀ it, inc.get p = some it → tnew.subset_of it = true) →
      RelAcc inc (mapSet a1 p (b, tnew)) (mapSet a2 p (b, tnew)) := by
  intro a1
  induction a1 with
  | nil =>
    intro a2 hr p b tnew hcond
    cases a2 with
    | nil => exact ⟨rfl, rfl, fun _ => rfl, fun hb it hit => hcond hb it hit, trivial⟩
    | cons e2 r2 => exact absurd hr (by simp [RelAcc])
  | cons e1 r1 ih =>
    intro a2 hr p b tnew hcond
    cases a2 with
    | nil => exact absurd hr (by simp [RelAcc])
    | cons e2 r2 =>
      obtain ⟨hk, hb, hf, ht, hrest⟩ := hr
      simp only [mapSet]
      by_cases hp : e1.1 = p
      · rw [if_pos hp, if_pos (by rw [← hk]; exact hp)]
        exact ⟨rfl, rfl, fun _ => rfl, fun hbt it hit => hcond hbt it hit, hrest⟩
      · rw [if_neg hp, if_neg (by rw [← hk]; exact hp)]
        exact ⟨hk, hb, hf, ht, ih r2 hrest p b tnew hcond⟩

theorem relacc_mapSet_right (inc : Incompatibility P V) :
    ∀ a1 a2, RelAcc inc a1 a2 → ∀ p tm1 tnew,
      mapGet a1 p = some (true, tm1) →
      (∀ it, inc.get p = some it → tnew.subset_of it = true) →
      RelAcc inc a1 (mapSet a2 p (true, tnew)) := by
  intro a1
  induction a1 with
  | nil =>
    intro a2 hr p tm1 tnew hget _
    cases hget
  | cons e1 r1 ih =>
    intro a2 hr p tm1 tnew hget hcond
    cases a2 with
    | nil => exact absurd hr (by simp [RelAcc])
    | cons e2 r2 =>
      obtain ⟨hk, hb, hf, ht, hrest⟩ := hr
      simp only [mapGet] at hget
      simp only [mapSet]
      by_cases hp : e1.1 = p
      · rw [if_pos hp] at hget
        rw [if_pos (by rw [← hk]; exact hp)]
        have he12 : e1.2 = (true, tm1) := Option.some.inj hget
        have hb1 : e1.2.1 = true := by rw [he12]
        refine ⟨by rw [hp], by rw [hb1], ?_, ?_, hrest⟩
        · intro hbf
          rw [hb1] at hbf
          cases hbf
        · intro _ it hit
          exact hcond it (by rw [← hp]; exact hit)
      · rw [if_neg hp] at hget
        rw [if_neg (by rw [← hk]; exact hp)]
        exact ⟨hk, hb, hf, ht, ih r2 hrest p tm1 tnew hget hcond⟩

theorem allSat_mapSet_true :
    ∀ (m : List (P × (Bool × Term V))) (p : P) (tm tnew : Term V),
      mapGet m p = some (true, tm) →
      allSatisfied (mapSet m p (true, tnew)) = allSatisfied m := by
  intro m
  induction m with
  | nil =>
    intro p tm tnew hget
    cases hget
  | cons e rest ih =>
    intro p tm tnew hget
    simp only [mapGet] at hget
    simp only [mapSet]
    by_cases hp : e.1 = p
    · rw [if_pos hp] at hget
      rw [if_pos hp]
      have he2 : e.2 = (true, tm) := Option.some.inj hget
      simp only [allSatisfied, List.all_cons]
      rw [he2]
    · rw [if_neg hp] at hget
      rw [if_neg hp]
      simp only [allSatisfied, List.all_cons]
      have := ih p tm tnew hget
      simp only [allSatisfied] at this
      rw [this]

theorem fsAux_eq_spec (inc : Incompatibility P V) :
    ∀ (l : List (ℕ × Assignment P V)) a1 a2,
      RelAcc inc a1 a2 → allSatisfied a1 = false →
      fsAux inc a1 l = fsAuxSpec inc a2 l := by
  intro l
  induction l with
  | nil =>
    intro a1 a2 _ _
    rfl
  | cons la rest ih =>
    intro a1 a2 hrel hall
    rw [fsAux_cons, fsAuxSpec_cons]
    rcases hg : inc.get la.2.package with _ | it
    · dsimp only
      rw [ih a1 a2 hrel hall]
    · dsimp only
      rcases relacc_get inc a1 a2 hrel la.2.package with ⟨h1, h2⟩ |
        ⟨b, tm1, tm2, h1, h2, hf, ht⟩
      · rw [h1, h2]
      · rw [h1, h2]
        cases b with
        | true =>
          dsimp only
          have hsub : tm2.subset_of it = true := ht rfl it hg
          have hsat2 : (tm2.intersection la.2.as_term).subset_of it = true :=
            Term.subset_inter tm2 la.2.as_term it hsub
          rw [hsat2]
          have hallset : allSatisfied
              (mapSet a2 la.2.package
                (true, tm2.intersection la.2.as_term)) = allSatisfied a2 :=
            allSat_mapSet_true a2 la.2.package tm2 _ h2
          have hcond : ¬((true && allSatisfied
              (mapSet a2 la.2.package
                (true, tm2.intersection la.2.as_term))) = true) := by
            rw [Bool.true_and, hallset, ← relacc_allSat inc a1 a2 hrel, hall]
            simp
          rw [if_neg hcond]
          have hrel2 : RelAcc inc a1
              (mapSet a2 la.2.package (true, tm2.intersection la.2.as_term)) :=
            relacc_mapSet_right inc a1 a2 hrel la.2.package tm1
              (tm2.intersection la.2.as_term) h1
              (by
                intro it2 hit2
                rw [hg] at hit2
                rw [← Option.some.inj hit2]
                exact hsat2)
          rw [ih a1 _ hrel2 hall]
        | false =>
          dsimp only
          have htm : tm1 = tm2 := hf rfl
          subst htm
          have hrel2 : RelAcc inc
              (mapSet a1 la.2.package
                ((tm1.intersection la.2.as_term).subset_of it,
                  tm1.intersection la.2.as_term))
              (mapSet a2 la.2.package
                ((tm1.intersection la.2.as_term).subset_of it,
                  tm1.intersection la.2.as_term)) :=
            relacc_mapSet_both inc a1 a2 hrel la.2.package _ _
              (by
                intro hbt it2 hit2
                rw [hg] at hit2
                rw [← Option.some.inj hit2]
                exact hbt)
          have hallseteq : allSatisfied
              (mapSet a1 la.2.package
                ((tm1.intersection la.2.as_term).subset_of it,
                  tm1.intersection la.2.as_term)) = allSatisfied
              (mapSet a2 la.2.package
                ((tm1.intersection la.2.as_term).subset_of it,
                  tm1.intersection la.2.as_term)) :=
            relacc_allSat inc _ _ hrel2
          rw [hallseteq]
          by_cases hgd : (((tm1.intersection la.2.as_term).subset_of it) &&
              allSatisfied
                (mapSet a2 la.2.package
                  ((tm1.intersection la.2.as_term).subset_of it,
                    tm1.intersection la.2.as_term))) = true
          · rw [if_pos hgd, if_pos hgd]
          · rw [if_neg hgd, if_neg hgd]
            have hallf : allSatisfied
                (mapSet a1 la.2.package
                  ((tm1.intersection la.2.as_term).subset_of it,
                    tm1.intersection la.2.as_term)) = false := by
              cases hsat : ((tm1.intersection la.2.as_term).subset_of it) with
              | false =>
                apply allSatisfied_false_of_get _ la.2.package
                  (tm1.intersection la.2.as_term)
                rw [← hsat, mapGet_mapSet_self]
              | true =>
                have hallseteq2 := hallseteq
                rw [hsat] at hallseteq2 hgd
                rw [hallseteq2]
                simp only [Bool.true_and] at hgd
                exact Bool.eq_false_iff.mpr hgd
            rw [ih _ _ hrel2 hallf]

end Claim10

/-- C10 (counterexample): with the accumulator exactly as seeded by
`find_previous_satisfier` for a single-package incompatibility whose
satisfier already satisfies it alone — every flag true — the skipping
`find_satisfier_helper` returns `none` while the non-skipping variant returns
the first assignment of the satisfier's package, so the two are not equal in
general. -/
theorem claim_C10_counterexample :
    find_satisfier_helper incW
        (mapSet (new_accum_satisfied_from incW)
          (Assignment.decision 0 0 : Assignment (Fin 2) (Fin 2)).package
          ((Assignment.decision 0 0 : Assignment (Fin 2) (Fin 2)).as_term.subset_of
              (Term.Positive {0}),
            (Assignment.decision 0 0 : Assignment (Fin 2) (Fin 2)).as_term))
        [(3, Assignment.decision 0 1)] = none ∧
    find_satisfier_helperSpec incW
        (mapSet (new_accum_satisfied_from incW)
          (Assignment.decision 0 0 : Assignment (Fin 2) (Fin 2)).package
          ((Assignment.decision 0 0 : Assignment (Fin 2) (Fin 2)).as_term.subset_of
              (Term.Positive {0}),
            (Assignment.decision 0 0 : Assignment (Fin 2) (Fin 2)).as_term))
        [(3, Assignment.decision 0 1)] =
      some ((3, Assignment.decision 0 1), []) := by
  decide

/-- C10 (amended): subset-ness is preserved by further intersection — for all
terms t, s, u, if `t.subset_of(u)` then `(t.intersection(s)).subset_of(u)` —
so a package once satisfied stays satisfied; consequently
`find_satisfier_helper`, which skips a package's subsequent assignments once
its accumulated flag is true, returns the same (level, assignment, prefix)
result as the non-skipping variant whenever the accumulator's true flags are
justified by that subset relation and the accumulator is not already fully
satisfied (both conditions hold for the accumulator of `find_satisfier` on a
nonempty incompatibility; a fully pre-satisfied seeded accumulator is the
counterexample). -/
theorem claim_C10 {P V : Type} [DecidableEq P] [DecidableEq V] [Fintype V] :
    (∀ t s u : Term V, t.subset_of u = true →
      (t.intersection s).subset_of u = true) ∧
    (∀ (inc : Incompatibility P V) (accum : List (P × (Bool × Term V)))
      (all : List (ℕ × Assignment P V)),
      (∀ e ∈ accum, entryJustified inc e = true) →
      allSatisfied accum = false →
      find_satisfier_helper inc accum all =
        find_satisfier_helperSpec inc accum all) := by
  constructor
  · intro t s u h
    exact Term.subset_inter t s u h
  · intro inc accum all hj hfalse
    unfold find_satisfier_helper find_satisfier_helperSpec
    rw [fsAux_eq_spec inc all accum accum (relacc_self inc accum hj) hfalse]

/-- Witness evaluating the equivalence component of `claim_C10` on a concrete
incompatibility, fresh accumulator and assignment list, discharging both
hypotheses. -/
theorem claim_C10_witness :
    ((∀ e ∈ new_accum_satisfied_from incW, entryJustified incW e = true) ∧
      allSatisfied (new_accum_satisfied_from incW) = false) ∧
    find_satisfier_helper incW (new_accum_satisfied_from incW)
        [(1, Assignment.decision 0 0)] =
      find_satisfier_helperSpec incW (new_accum_satisfied_from incW)
        [(1, Assignment.decision 0 0)] :=
  ⟨⟨by decide, by decide⟩,
    (@claim_C10 (Fin 2) (Fin 2) _ _ _).2 incW (new_accum_satisfied_from incW)
      [(1, Assignment.decision 0 0)] (by decide) (by decide)⟩
